import Mathlib

/-!
Package eiter: iterators that may encounter errors.

A shallow embedding of `eiter.go` (package `eiter`) and of the generators used
by `eiter_test.go`.

Modelling:

* A Go function value that drives a step callback (`iter.Seq[T]`, a generator
  `func(yield func(T) bool) error`, the function returned by `Unwrap`) is
  embedded as the tree of its interaction with that callback, `Prog W Y R`:
  it returns `r`, or it calls the callback on `y` and goes on according to the
  `bool` it gets back, or it writes the error slot it holds a pointer to, or
  it panics.  The tree is the function's whole behaviour towards its callback;
  whatever private state the function keeps lives in the continuations.
* `W` is the type of what the function may write into the caller's error slot.
  Sequences and generators handed to the library hold no pointer to the slot
  and are typed with `W = Empty`; only `Unwrap` writes (`W = Error`).
* Calling such a function with a callback is `call`; ranging over it with a
  `for ... range` statement is `forRange`, which follows the Go rule that the
  synthesized `yield` must not be called again once the loop body has
  terminated (the run-time panics if it is).
* A pass is observed by `Prog.run`: the consumer is a step function over its
  own state, and the pass records every call made to it with its answer.
-/

namespace Eiter

/-! ## Errors -/

/-- Go `error` values as far as the package looks at them: the package's
sentinel, an error made by `errors.New`, and an error wrapping another one
(`fmt.Errorf("...: %w", inner)`).  A nil `error` is `none : Option Error`. -/
inductive Error where
  | sentinel : Error
  | new (msg : String) : Error
  | wrap (msg : String) (inner : Error) : Error
  deriving DecidableEq

/-- Source: `var ErrStop = errors.New("stop")`: a value with an identity of its own. -/
def ErrStop : Error := Error.sentinel

/-- Source: `errors.Is(err, target)` of the standard library on the errors above: `err`
matches when it is `target` or when an error of its unwrap chain is. -/
def errors.Is : Error → Error → Bool
  | Error.wrap msg inner, target =>
      if Error.wrap msg inner = target then true else errors.Is inner target
  | err, target => decide (err = target)

/-! ## Entries -/

/-- Source: `type Entry[T any] struct { err error; value T }`. -/
structure Entry (T : Type) where
  err : Option Error
  value : T
  deriving DecidableEq

/-- Source: `func (r *Entry[T]) Err() error`. -/
def Entry.Err {T : Type} (r : Entry T) : Option Error := r.err

/-- Source: `func (r *Entry[T]) Value() T`. -/
def Entry.Value {T : Type} (r : Entry T) : T := r.value

/-! ## Functions that drive a step callback -/

/-- The behaviour of a Go function that is given a step callback
`func(Y) bool`, towards that callback. -/
inductive Prog (W Y R : Type) where
  /-- The function returns `r`. -/
  | ret (r : R) : Prog W Y R
  /-- The function calls the callback on `y` and continues with `k b`, where
  `b` is what the callback returned. -/
  | yield (y : Y) (k : Bool → Prog W Y R) : Prog W Y R
  /-- The function stores `w` into the error slot, `*err = w`. -/
  | store (w : W) (k : Prog W Y R) : Prog W Y R
  /-- The function panics. -/
  | panic : Prog W Y R

/-- Sequencing: run `p`, then `f` on what it returned. -/
def Prog.bind {W Y A B : Type} : Prog W Y A → (A → Prog W Y B) → Prog W Y B
  | Prog.ret a, f => f a
  | Prog.yield y k, f => Prog.yield y (fun b => (k b).bind f)
  | Prog.store w k, f => Prog.store w (k.bind f)
  | Prog.panic, _ => Prog.panic

/-- One call of the ambient step callback, `yield(y)`. -/
def emit {W Y : Type} (y : Y) : Prog W Y Bool := Prog.yield y Prog.ret

/-- The call `g(f)` of a function value `g` with the callback `f`: each call
that `g` makes to its callback runs `f`, and `g` goes on with what `f` returned.
`g` holds no pointer to the error slot. -/
def call {W X Y R : Type} : Prog Empty X R → (X → Prog W Y Bool) → Prog W Y R
  | Prog.ret r, _ => Prog.ret r
  | Prog.yield x k, f => (f x).bind (fun b => call (k b) f)
  | Prog.store w _, _ => w.elim
  | Prog.panic, _ => Prog.panic

/-- What is left of a `for ... range s` statement once its body has terminated:
the synthesized `yield` has returned false to `s`; when `s` returns, the
statement is over, and when `s` calls `yield` again, the run-time panics. -/
def afterExit {W X Y : Type} : Prog Empty X Unit → Prog W Y Unit
  | Prog.ret _ => Prog.ret ()
  | Prog.yield _ _ => Prog.panic
  | Prog.store w _ => w.elim
  | Prog.panic => Prog.panic

/-- The statement `for x := range s { body }` where the only way out of the
body is `return` and nothing follows the loop in the enclosing function.
`body x` returns true when it ran to its end and false when it executed
`return`; that is what the synthesized `yield` returns to `s`. -/
def forRange {W X Y : Type} : Prog Empty X Unit → (X → Prog W Y Bool) → Prog W Y Unit
  | Prog.ret _, _ => Prog.ret ()
  | Prog.yield x k, body =>
      (body x).bind (fun c => if c then forRange (k true) body else afterExit (k false))
  | Prog.store w _, _ => w.elim
  | Prog.panic, _ => Prog.panic

/-! ## The package -/

/-- Source: `iter.Seq[T]`, as a value handed to the package. -/
abbrev IterSeq (T : Type) : Type := Prog Empty T Unit

/-- Source: `type Seq[T any] iter.Seq[*Entry[T]]`. -/
abbrev Seq (T : Type) : Type := Prog Empty (Entry T) Unit

/-- Source: `func(yield func(T) bool) error`, the argument of `Of`. -/
abbrev Generator (T : Type) : Type := Prog Empty T (Option Error)

/-- Source: `func (s Seq[T]) Unwrap(err *error) iter.Seq[T]`: the returned function. -/
def Seq.Unwrap {T : Type} (s : Seq T) : Prog Error T Unit :=
  forRange s (fun e =>
    match e.Err with
    | some err => Prog.store err (Prog.ret false)
    | none => (emit e.Value).bind (fun ok => if !ok then Prog.ret false else Prog.ret true))

/-- Source: `func Just[T any](it iter.Seq[T]) Seq[T]`: the returned function. -/
def Just {T : Type} (it : IterSeq T) : Seq T :=
  forRange it (fun e =>
    (emit { err := none, value := e }).bind
      (fun ok => if !ok then Prog.ret false else Prog.ret true))

/-- Source: `func Of[T any](generator func(yield func(T) bool) error) Seq[T]`: the
returned function.  The zero value of `T` is `default`. -/
def Of {T : Type} [Inhabited T] (generator : Generator T) : Seq T :=
  (call generator (fun t => emit { err := none, value := t })).bind (fun err =>
    match err with
    | some e =>
        if !errors.Is e ErrStop then
          (emit { err := some e, value := default }).bind (fun _ => Prog.ret ())
        else Prog.ret ()
    | none => Prog.ret ())

/-! ## Observing a pass -/

/-- What one pass leaves behind: every call made to the consumer's step
callback with the answer it gave (true: continue, false: stop), the consumer's
state, the content of the error slot, and what the function returned (`none`
when it panicked). -/
structure Pass (W Y R σ : Type) where
  log : List (Y × Bool)
  state : σ
  slot : Option W
  result : Option R

/-- Run a function against a consumer whose step callback is `step`, from the
consumer state `st` and the slot content `sl`. -/
def Prog.run {W Y R σ : Type} (step : Y → σ → Bool × σ) :
    Prog W Y R → σ → Option W → Pass W Y R σ
  | Prog.ret r, st, sl => { log := [], state := st, slot := sl, result := some r }
  | Prog.yield y k, st, sl =>
      let a := step y st
      let p := (k a.1).run step a.2 sl
      { log := (y, a.1) :: p.log, state := p.state, slot := p.slot, result := p.result }
  | Prog.store w k, st, _ => k.run step st (some w)
  | Prog.panic, st, sl => { log := [], state := st, slot := sl, result := none }

/-- The entries or values delivered in a pass, in order. -/
def Pass.delivered {W Y R σ : Type} (p : Pass W Y R σ) : List Y := p.log.map Prod.fst

/-- The function makes no call to its step callback. -/
def Prog.silent {W Y R : Type} : Prog W Y R → Bool
  | Prog.ret _ => true
  | Prog.yield _ _ => false
  | Prog.store _ k => k.silent
  | Prog.panic => true

/-- The function makes no further call to its step callback once the callback
has returned false. -/
def Prog.obeysStop {W Y R : Type} : Prog W Y R → Bool
  | Prog.ret _ => true
  | Prog.yield _ k => (k true).obeysStop && (k false).silent
  | Prog.store _ k => k.obeysStop
  | Prog.panic => true

/-! ## The generators of the tests -/

/-- The loop `for i := range ct { if !yield(i) { return nil } }` followed by
`return e`, with `n` rounds left from `i`. -/
def countFrom (e : Error) : Nat → Int → Generator Int
  | 0, _ => Prog.ret (some e)
  | n + 1, i => Prog.yield i (fun ok => if !ok then Prog.ret none else countFrom e n (i + 1))

/-- The generator inside `Counter(ct)`, with the error it returns at the end
as a parameter. -/
def countingGenerator (ct : Int) (e : Error) : Generator Int := countFrom e ct.toNat 0

/-- Source: `func Counter(ct int) eiter.Seq[int]`. -/
def Counter (ct : Int) : Seq Int := Of (countingGenerator ct (Error.new "Error World!"))

/-- The generator of `ExampleOf_stop`: the callback handed to
`SomeOtherCallbackAPI` calls `yield(count)`, drops the answer, and returns
`ErrStop`, which the generator returns. -/
def stopGenerator : Generator Int := Prog.yield 0 (fun _ => Prog.ret (some ErrStop))

/-- Source: `slices.Values(s)`: `for _, v := range s { if !yield(v) { return } }`. -/
def slicesValues {T : Type} : List T → IterSeq T
  | [] => Prog.ret ()
  | v :: vs => Prog.yield v (fun ok => if !ok then Prog.ret () else slicesValues vs)

/-- The loop body of `slices.Collect`, `s = append(s, v)`, as a consumer. -/
def collectStep {T : Type} (v : T) (acc : List T) : Bool × List T := (true, acc ++ [v])

/-- Source: `slices.Collect(seq)` with the slot starting at `sl`: the collected slice,
which there is only when the pass returns (a panic of the pass goes through
`slices.Collect`, which then returns nothing), and the content of the slot
afterwards. -/
def slicesCollect {W T : Type} (seq : Prog W T Unit) (sl : Option W) :
    Option (List T) × Option W :=
  let p := seq.run collectStep [] sl
  (p.result.map (fun _ => p.state), p.slot)

/-- A generator that reports the consumer's stop as an error of its own:
`if !yield(0) { return errors.New("cancelled") }; return nil`. -/
def cancelledGenerator : Generator Int :=
  Prog.yield 0 (fun ok => if !ok then Prog.ret (some (Error.new "cancelled")) else Prog.ret none)

/-- A consumer that stops on the first entry it is given. -/
def stopNow {Y : Type} (_ : Y) (_ : Unit) : Bool × Unit := (false, ())

/-- A consumer that counts the entries it is given and stops on the `k`-th. -/
def stopAt {Y : Type} (k : Nat) (_ : Y) (seen : Nat) : Bool × Nat := (decide (seen + 1 < k), seen + 1)

/-- The unwrap chain of an error: the error itself, then what it wraps, and so
on.  An error equals or wraps `target` when `target` is in its chain. -/
def Error.chain : Error → List Error
  | Error.wrap msg inner => Error.wrap msg inner :: inner.chain
  | err => [err]

/-- A consumer that never stops and keeps no state. -/
def alwaysContinue {Y : Type} (_ : Y) (_ : Unit) : Bool × Unit := (true, ())

/-- The answers a consumer gives when its step callback is called on `ys` in
order, from the state `st`. -/
def answers {Y σ : Type} (step : Y → σ → Bool × σ) : List Y → σ → List Bool
  | [], _ => []
  | y :: ys, st => (step y st).1 :: answers step ys (step y st).2

/-- The success entry `&Entry[T]{value: t}`. -/
def success {T : Type} (t : T) : Entry T := { err := none, value := t }

/-- The error entry `&Entry[T]{err: err}`. -/
def failure {T : Type} [Inhabited T] (e : Error) : Entry T := { err := some e, value := default }

/-! ## The key/value variant -/

/-- Source: `type Entry2[K, V any] struct { err error; key K; value V }`. -/
structure Entry2 (K V : Type) where
  err : Option Error
  key : K
  value : V
  deriving DecidableEq

/-- Source: `func (r *Entry2[K, V]) Err() error`. -/
def Entry2.Err {K V : Type} (r : Entry2 K V) : Option Error := r.err

/-- Source: `func (r *Entry2[K, V]) Key() K`. -/
def Entry2.Key {K V : Type} (r : Entry2 K V) : K := r.key

/-- Source: `func (r *Entry2[K, V]) Value() V`. -/
def Entry2.Value {K V : Type} (r : Entry2 K V) : V := r.value

/-- Source: `iter.Seq2[K, V]`, as a value handed to the package; its step callback
`func(K, V) bool` takes the pair. -/
abbrev IterSeq2 (K V : Type) : Type := Prog Empty (K × V) Unit

/-- Source: `type Seq2[K, V any] iter.Seq[*Entry2[K, V]]`. -/
abbrev Seq2 (K V : Type) : Type := Prog Empty (Entry2 K V) Unit

/-- Source: `func(yield func(K, V) bool) error`, the argument of `Of2`. -/
abbrev Generator2 (K V : Type) : Type := Prog Empty (K × V) (Option Error)

/-- Source: `func (s Seq2[K, V]) Unwrap(err *error) iter.Seq2[K, V]`: the returned
function. -/
def Seq2.Unwrap {K V : Type} (s : Seq2 K V) : Prog Error (K × V) Unit :=
  forRange s (fun e =>
    match e.Err with
    | some err => Prog.store err (Prog.ret false)
    | none =>
        (emit (e.Key, e.Value)).bind (fun ok => if !ok then Prog.ret false else Prog.ret true))

/-- Source: `func Just2[K, V any](it iter.Seq2[K, V]) Seq2[K, V]`: the returned
function. -/
def Just2 {K V : Type} (it : IterSeq2 K V) : Seq2 K V :=
  forRange it (fun kv =>
    (emit { err := none, key := kv.1, value := kv.2 }).bind
      (fun ok => if !ok then Prog.ret false else Prog.ret true))

/-- Source: `func Of2[K, V any](generator func(yield func(K, V) bool) error) Seq2[K, V]`:
the returned function.  The zero values of `K` and `V` are `default`. -/
def Of2 {K V : Type} [Inhabited K] [Inhabited V] (generator : Generator2 K V) : Seq2 K V :=
  (call generator (fun kv => emit { err := none, key := kv.1, value := kv.2 })).bind (fun err =>
    match err with
    | some e =>
        if !errors.Is e ErrStop then
          (emit { err := some e, key := default, value := default }).bind (fun _ => Prog.ret ())
        else Prog.ret ()
    | none => Prog.ret ())

/-- The success entry `&Entry2[K, V]{key: k, value: v}`. -/
def success2 {K V : Type} (kv : K × V) : Entry2 K V := { err := none, key := kv.1, value := kv.2 }

/-- The error entry `&Entry2[K, V]{err: err}`. -/
def failure2 {K V : Type} [Inhabited K] [Inhabited V] (e : Error) : Entry2 K V :=
  { err := some e, key := default, value := default }

/-- Source: `strconv.Itoa(i)` of the standard library, the decimal string of `i`. -/
def strconv.Itoa (i : Int) : String := toString i

/-- The loop `for i := range ct { if !yield(i, strconv.Itoa(i)) { return nil } }`
followed by `return e`, with `n` rounds left from `i`. -/
def countFrom2 (e : Error) : Nat → Int → Generator2 Int String
  | 0, _ => Prog.ret (some e)
  | n + 1, i =>
      Prog.yield (i, strconv.Itoa i) (fun ok => if !ok then Prog.ret none else countFrom2 e n (i + 1))

/-- The generator inside `Counter2(ct)`, with the error it returns at the end
as a parameter. -/
def countingGenerator2 (ct : Int) (e : Error) : Generator2 Int String := countFrom2 e ct.toNat 0

/-- Source: `func Counter2(ct int) eiter.Seq2[int, string]`. -/
def Counter2 (ct : Int) : Seq2 Int String := Of2 (countingGenerator2 ct (Error.new "Error World!"))

/-- The loop of `slices.All(s)`, `for i, v := range s { if !yield(i, v) { return } }`,
over what is left of the slice from the index `i`. -/
def slicesAllFrom {T : Type} : Int → List T → IterSeq2 Int T
  | _, [] => Prog.ret ()
  | i, v :: vs => Prog.yield (i, v) (fun ok => if !ok then Prog.ret () else slicesAllFrom (i + 1) vs)

/-- Source: `slices.All(s)`. -/
def slicesAll {T : Type} (s : List T) : IterSeq2 Int T := slicesAllFrom 0 s

/-! ## Sequences for the comparisons -/

/-- The generator `func(yield func(T) bool) error { it(yield); return nil }`:
it runs `it` with the step callback it is given and then returns nil. -/
def neverFailing {T : Type} (it : IterSeq T) : Generator T :=
  (call it (fun t => emit t)).bind (fun _ => Prog.ret none)

/-- A sequence that calls its step callback on `1` and then on `2`, whatever
the callback returns: `func(yield func(int) bool) { yield(1); yield(2) }`. -/
def deafSeq : IterSeq Int := Prog.yield 1 (fun _ => Prog.yield 2 (fun _ => Prog.ret ()))

/-! ## How the package's functions unfold along the interaction -/

section Unfold

variable {T : Type}

theorem errors_Is_iff_mem_chain (e target : Error) :
    errors.Is e target = true ↔ target ∈ e.chain := by
  induction e with
  | sentinel => simp [errors.Is, Error.chain, eq_comm]
  | new msg => simp [errors.Is, Error.chain, eq_comm]
  | wrap msg inner ih =>
      simp only [errors.Is, Error.chain, List.mem_cons]
      by_cases h : Error.wrap msg inner = target
      · simp [h]
      · simp only [h, if_false, ih]
        constructor
        · exact fun hm => Or.inr hm
        · rintro (hm | hm)
          · exact absurd hm.symm h
          · exact hm

theorem Of_ret_none [Inhabited T] : Of (Prog.ret none : Generator T) = Prog.ret () := rfl

theorem Of_ret_some [Inhabited T] (e : Error) :
    Of (Prog.ret (some e) : Generator T) =
      if errors.Is e ErrStop then Prog.ret () else Prog.yield (failure e) (fun _ => Prog.ret ()) := by
  cases h : errors.Is e ErrStop <;> simp [Of, call, Prog.bind, h, emit, failure]

theorem Of_yield [Inhabited T] (t : T) (k : Bool → Generator T) :
    Of (Prog.yield t k) = Prog.yield (success t) (fun b => Of (k b)) := by
  simp [Of, call, Prog.bind, emit, success]

theorem Of_panic [Inhabited T] : Of (Prog.panic : Generator T) = Prog.panic := rfl

theorem Just_ret (u : Unit) : Just (Prog.ret u : IterSeq T) = Prog.ret () := rfl

theorem Just_yield (t : T) (k : Bool → IterSeq T) :
    Just (Prog.yield t k) =
      Prog.yield (success t) (fun b => if b then Just (k true) else afterExit (k false)) := by
  simp only [Just, forRange, Prog.bind, emit, success]
  congr 1
  funext b
  cases b <;> simp [Prog.bind]

theorem Just_panic : Just (Prog.panic : IterSeq T) = Prog.panic := rfl

theorem Unwrap_ret (u : Unit) : Seq.Unwrap (Prog.ret u : Seq T) = Prog.ret () := rfl

theorem Unwrap_yield_failure (e : Entry T) (err : Error) (k : Bool → Seq T) (h : e.Err = some err) :
    Seq.Unwrap (Prog.yield e k) = Prog.store err (afterExit (k false)) := by
  simp [Seq.Unwrap, forRange, Prog.bind, h]

theorem Unwrap_yield_success (e : Entry T) (k : Bool → Seq T) (h : e.Err = none) :
    Seq.Unwrap (Prog.yield e k) =
      Prog.yield e.Value (fun b => if b then Seq.Unwrap (k true) else afterExit (k false)) := by
  simp only [Seq.Unwrap, forRange, Prog.bind, emit, h]
  congr 1
  funext b
  cases b <;> simp [Prog.bind]

theorem Unwrap_panic : Seq.Unwrap (Prog.panic : Seq T) = Prog.panic := rfl

end Unfold

/-! ## Passes over `Of` -/

section OfPass

variable {T σ : Type} [Inhabited T]

/-- A pass over `Of g` is the generator's own pass against the wrapper step
callback, followed by the delivery of the error entry when the generator
returned an error that is not the sentinel. -/
theorem Of_run (step : Entry T → σ → Bool × σ) (g : Generator T) (st : σ) (sl : Option Empty) :
    (Of g).run step st sl =
      match (g.run (fun t => step (success t)) st sl).result with
      | some (some e) =>
          if errors.Is e ErrStop then
            { log := (g.run (fun t => step (success t)) st sl).log.map (fun a => (success a.1, a.2)),
              state := (g.run (fun t => step (success t)) st sl).state,
              slot := (g.run (fun t => step (success t)) st sl).slot,
              result := some () }
          else
            { log := (g.run (fun t => step (success t)) st sl).log.map (fun a => (success a.1, a.2)) ++
                [(failure e, (step (failure e) (g.run (fun t => step (success t)) st sl).state).1)],
              state := (step (failure e) (g.run (fun t => step (success t)) st sl).state).2,
              slot := (g.run (fun t => step (success t)) st sl).slot,
              result := some () }
      | some none =>
          { log := (g.run (fun t => step (success t)) st sl).log.map (fun a => (success a.1, a.2)),
            state := (g.run (fun t => step (success t)) st sl).state,
            slot := (g.run (fun t => step (success t)) st sl).slot,
            result := some () }
      | none =>
          { log := (g.run (fun t => step (success t)) st sl).log.map (fun a => (success a.1, a.2)),
            state := (g.run (fun t => step (success t)) st sl).state,
            slot := (g.run (fun t => step (success t)) st sl).slot,
            result := none } := by
  induction g generalizing st sl with
  | ret r =>
      cases r with
      | none => simp [Of_ret_none, Prog.run]
      | some e =>
          rw [Of_ret_some]
          cases h : errors.Is e ErrStop <;> simp [Prog.run, h]
  | yield t k ih =>
      rw [Of_yield]
      simp only [Prog.run]
      rw [ih]
      rcases hres : ((k (step (success t) st).1).run (fun t => step (success t))
        (step (success t) st).2 sl).result with _ | (_ | e)
      · simp
      · simp
      · cases h : errors.Is e ErrStop <;> simp [h]
  | store w _ _ => exact w.elim
  | panic => simp [Of_panic, Prog.run]

/-- Against a consumer that never stops, a function makes the calls and
returns what it does against `alwaysContinue`. -/
theorem run_of_continue {W Y R : Type} (step : Y → σ → Bool × σ) (hstep : ∀ y s, (step y s).1 = true)
    (p : Prog W Y R) (st : σ) (sl : Option W) :
    (p.run step st sl).log = (p.run alwaysContinue () sl).log ∧
    (p.run step st sl).slot = (p.run alwaysContinue () sl).slot ∧
    (p.run step st sl).result = (p.run alwaysContinue () sl).result := by
  induction p generalizing st sl with
  | ret r => simp [Prog.run]
  | yield y k ih =>
      simp only [Prog.run, hstep, alwaysContinue]
      obtain ⟨h1, h2, h3⟩ := ih true (step y st).2 sl
      simp [h1, h2, h3]
  | store w k ih => simpa [Prog.run] using ih st (some w)
  | panic => simp [Prog.run]

/-- The log of a pass over `Of g`: the generator's calls, each delivered as a
success entry and answered as the consumer answered, then at most one error
entry, delivered when the generator returned an error outside the sentinel's
chain. -/
theorem Of_log (step : Entry T → σ → Bool × σ) (g : Generator T) (st : σ) (sl : Option Empty) :
    ((Of g).run step st sl).log =
        (g.run (fun t => step (success t)) st sl).log.map (fun a => (success a.1, a.2)) ∨
    ∃ e b, (g.run (fun t => step (success t)) st sl).result = some (some e) ∧
      errors.Is e ErrStop = false ∧
      ((Of g).run step st sl).log =
        (g.run (fun t => step (success t)) st sl).log.map (fun a => (success a.1, a.2)) ++
          [(failure e, b)] := by
  rw [Of_run]
  rcases hres : (g.run (fun t => step (success t)) st sl).result with _ | (_ | e)
  · simp
  · simp
  · cases h : errors.Is e ErrStop
    · right
      refine ⟨e, (step (failure e) (g.run (fun t => step (success t)) st sl).state).1, rfl, h, ?_⟩
      simp [h]
    · left
      simp [h]

end OfPass

/-! ## Lists -/

theorem takeWhile_before_first {α : Type} (p : α → Bool) (pre : List α) (e : α) (post : List α)
    (hpre : ∀ x ∈ pre, p x = true) (he : p e = false) :
    (pre ++ e :: post).takeWhile p = pre := by
  induction pre with
  | nil => simp [List.takeWhile_cons, he]
  | cons x xs ih =>
      have hx : p x = true := hpre x (List.mem_cons_self _ _)
      simp [List.takeWhile_cons, hx, ih (fun y hy => hpre y (List.mem_cons_of_mem _ hy))]

theorem find_first {α : Type} (p : α → Bool) (pre : List α) (e : α) (post : List α)
    (hpre : ∀ x ∈ pre, p x = false) (he : p e = true) :
    (pre ++ e :: post).find? p = some e := by
  induction pre with
  | nil => simp [he]
  | cons x xs ih =>
      have hx : p x = false := hpre x (List.mem_cons_self _ _)
      simp [List.find?_cons, hx, ih (fun y hy => hpre y (List.mem_cons_of_mem _ hy))]

/-! ## Passes over `Unwrap` -/

section UnwrapPass

variable {T σ : Type}

/-- Once the loop body has terminated, the range statement makes no call to
the consumer and leaves its state and the slot as they are. -/
theorem afterExit_run {W X Y : Type} (step : Y → σ → Bool × σ) (p : Prog Empty X Unit) (st : σ)
    (sl : Option W) :
    ((afterExit p : Prog W Y Unit).run step st sl).log = [] ∧
    ((afterExit p : Prog W Y Unit).run step st sl).state = st ∧
    ((afterExit p : Prog W Y Unit).run step st sl).slot = sl := by
  cases p with
  | ret r => simp [afterExit, Prog.run]
  | yield x k => simp [afterExit, Prog.run]
  | store w _ => exact w.elim
  | panic => simp [afterExit, Prog.run]

/-- Against a consumer that never stops, `Unwrap` yields the values of the
entries before the first error entry, and the slot ends up with that entry's
error, or as it was when there is none. -/
theorem Unwrap_run_of_continue (step : T → σ → Bool × σ) (hstep : ∀ v c, (step v c).1 = true)
    (s : Seq T) (st : σ) (sl : Option Error) :
    ((Seq.Unwrap s).run step st sl).delivered =
        ((s.run alwaysContinue () none).delivered.takeWhile (fun e => e.Err.isNone)).map
          Entry.Value ∧
    ((Seq.Unwrap s).run step st sl).slot =
        match (s.run alwaysContinue () none).delivered.find? (fun e => e.Err.isSome) with
        | some e => e.Err
        | none => sl := by
  induction s generalizing st with
  | ret r => simp [Unwrap_ret, Prog.run, Pass.delivered]
  | yield e k ih =>
      cases h : e.Err with
      | some err =>
          rw [Unwrap_yield_failure e err k h]
          obtain ⟨h1, -, h3⟩ := afterExit_run (Y := T) step (k false) st (some err)
          simp [Prog.run, Pass.delivered, h1, h3, h, alwaysContinue]
      | none =>
          rw [Unwrap_yield_success e k h]
          obtain ⟨h1, h2⟩ := ih true (step e.Value st).2
          simp only [Pass.delivered] at h1
          simp [Prog.run, Pass.delivered, hstep, h, alwaysContinue, h1, h2]
  | store w _ _ => exact w.elim
  | panic => simp [Unwrap_panic, Prog.run, Pass.delivered]

/-- With the collecting consumer, the state after a pass is the slice before
it followed by the values delivered. -/
theorem run_collect_state {W R : Type} (p : Prog W T R) (acc : List T) (sl : Option W) :
    (p.run collectStep acc sl).state = acc ++ (p.run collectStep acc sl).delivered := by
  induction p generalizing acc sl with
  | ret r => simp [Prog.run, Pass.delivered]
  | yield y k ih =>
      simp only [Prog.run, Pass.delivered, collectStep] at ih ⊢
      rw [ih]
      simp
  | store w k ih => simpa [Prog.run] using ih acc (some w)
  | panic => simp [Prog.run, Pass.delivered]

end UnwrapPass

/-! ## Passes that a consumer stops -/

section StopPass

variable {T σ : Type}

/-- In a pass over `Unwrap`, a value on which the consumer stops is the last
one yielded, and the slot is as it was before the pass. -/
theorem Unwrap_log_stop (step : T → σ → Bool × σ) (s : Seq T) (st : σ) (sl : Option Error)
    (pre : List (T × Bool)) (v : T) (post : List (T × Bool))
    (h : ((Seq.Unwrap s).run step st sl).log = pre ++ (v, false) :: post) :
    post = [] ∧ ((Seq.Unwrap s).run step st sl).slot = sl := by
  induction s generalizing st pre with
  | ret r => simp [Unwrap_ret, Prog.run] at h
  | yield e k ih =>
      cases he : e.Err with
      | some err =>
          rw [Unwrap_yield_failure e err k he] at h
          obtain ⟨h1, -, -⟩ := afterExit_run (Y := T) step (k false) st (some err)
          simp [Prog.run, h1] at h
      | none =>
          rw [Unwrap_yield_success e k he] at h ⊢
          simp only [Prog.run] at h ⊢
          cases ha : (step e.Value st).1 with
          | true =>
              simp only [ha, if_true] at h ⊢
              cases pre with
              | nil => simp at h
              | cons a pre' =>
                  simp only [List.cons_append, List.cons.injEq] at h
                  exact ih true (step e.Value st).2 pre' h.2
          | false =>
              obtain ⟨h1, -, h3⟩ :=
                afterExit_run (Y := T) step (k false) (step e.Value st).2 sl
              simp only [ha, Bool.false_eq_true, if_false, h1] at h ⊢
              refine ⟨?_, h3⟩
              cases pre with
              | nil =>
                  simp only [List.nil_append, List.cons.injEq] at h
                  exact h.2.symm
              | cons a pre' => simp at h
  | store w _ _ => exact w.elim
  | panic => simp [Unwrap_panic, Prog.run] at h

/-- The way the consumer answers the wrapper callback of `Of` is the way it
answers the success entries. -/
theorem answers_success (step : Entry T → σ → Bool × σ) (vs : List T) (st : σ) :
    answers (fun t => step (success t)) vs st = answers step (vs.map success) st := by
  induction vs generalizing st with
  | nil => rfl
  | cons v vs ih => simp [answers, ih]

/-- The counting loop against a callback that returns true `k` times and then
false: it calls the callback on `m, ..., m + k` and returns nil. -/
theorem countFrom_run_stop (E : Error) (step : Int → σ → Bool × σ) (k n m : Nat) (st : σ)
    (hkn : k < n)
    (hans : answers step ((List.range' m (k + 1)).map Nat.cast) st =
      List.replicate k true ++ [false]) :
    ((countFrom E n m).run step st none).log =
        ((List.range' m (k + 1)).map Nat.cast).zip (List.replicate k true ++ [false]) ∧
    ((countFrom E n m).run step st none).result = some none := by
  induction k generalizing n m st with
  | zero =>
      obtain ⟨n, rfl⟩ : ∃ n', n = n' + 1 := ⟨n - 1, by omega⟩
      simp only [List.range'_one, List.map_cons, List.map_nil, answers, List.replicate_zero,
        List.nil_append, List.cons.injEq, and_true] at hans
      simp [countFrom, Prog.run, hans]
  | succ k ih =>
      obtain ⟨n, rfl⟩ : ∃ n', n = n' + 1 := ⟨n - 1, by omega⟩
      rw [List.range'_succ] at hans ⊢
      simp only [List.map_cons, answers, List.replicate_succ, List.cons_append,
        List.cons.injEq] at hans
      obtain ⟨h1, h2⟩ := ih n (m + 1) (step (m : Int) st).2 (by omega) hans.2
      simp only [Nat.cast_add, Nat.cast_one] at h1 h2
      simp [countFrom, Prog.run, hans.1, h1, h2, List.replicate_succ]

end StopPass

/-! ## Passes of the collecting consumer over the test sequences -/

section CollectPass

variable {T : Type}

/-- Collecting `Just(slices.Values(S)).Unwrap(&slot)` appends `S` to the slice
and leaves the slot alone. -/
theorem Unwrap_Just_slicesValues_run (S : List T) (acc : List T) (sl : Option Error) :
    ((Seq.Unwrap (Just (slicesValues S))).run collectStep acc sl).state = acc ++ S ∧
    ((Seq.Unwrap (Just (slicesValues S))).run collectStep acc sl).slot = sl ∧
    ((Seq.Unwrap (Just (slicesValues S))).run collectStep acc sl).result = some () := by
  induction S generalizing acc with
  | nil => simp [slicesValues, Just_ret, Unwrap_ret, Prog.run]
  | cons v vs ih =>
      rw [slicesValues, Just_yield, Unwrap_yield_success (success v) _ rfl]
      obtain ⟨h1, h2, h3⟩ := ih (acc ++ [v])
      simp [Prog.run, collectStep, success, Entry.Value, h1, h2, h3]

/-- Collecting `Unwrap` over `Of` of the counting loop with `n` rounds left
from `m` appends `m, ..., m + n - 1` and stores the generator's error. -/
theorem Unwrap_Of_countFrom_run (E : Error) (hE : errors.Is E ErrStop = false) (n m : Nat)
    (acc : List Int) (sl : Option Error) :
    ((Seq.Unwrap (Of (countFrom E n m))).run collectStep acc sl).state =
        acc ++ (List.range' m n).map Nat.cast ∧
    ((Seq.Unwrap (Of (countFrom E n m))).run collectStep acc sl).slot = some E ∧
    ((Seq.Unwrap (Of (countFrom E n m))).run collectStep acc sl).result = some () := by
  induction n generalizing m acc with
  | zero =>
      rw [countFrom, Of_ret_some, hE]
      simp only [Bool.false_eq_true, if_false]
      rw [Unwrap_yield_failure (failure E) E _ rfl]
      simp [Prog.run, afterExit]
  | succ n ih =>
      rw [countFrom, Of_yield, Unwrap_yield_success (success (m : Int)) _ rfl]
      obtain ⟨h1, h2, h3⟩ := ih (m + 1) (acc ++ [(m : Int)])
      simp only [Nat.cast_add, Nat.cast_one] at h1 h2 h3
      simp [Prog.run, collectStep, success, Entry.Value, h1, h2, h3, List.range'_succ]

end CollectPass

/-! ## The claims about `Of` -/

section OfClaims

variable {T σ : Type} [Inhabited T]

/-- C1: a generator that, as long as it is told to continue, calls its step
callback on `vs` in order and then returns an error `E` that neither is nor
wraps `ErrStop`: a pass over `Of g` with a consumer that always continues
delivers the success entries of `vs`, in order, then one error entry carrying
`E`, and nothing else, and returns. -/
theorem Of_delivers_values_then_error (g : Generator T) (vs : List T) (E : Error)
    (step : Entry T → σ → Bool × σ) (st : σ)
    (hcalls : (g.run alwaysContinue () none).delivered = vs)
    (hret : (g.run alwaysContinue () none).result = some (some E))
    (hE : ErrStop ∉ E.chain)
    (hstep : ∀ e s, (step e s).1 = true) :
    ((Of g).run step st none).delivered = vs.map success ++ [failure E] ∧
    (failure E : Entry T).Err = some E ∧
    (∀ v : T, (success v).Err = none ∧ (success v).Value = v) ∧
    ((Of g).run step st none).result = some () := by
  obtain ⟨h1, -, h3⟩ := run_of_continue (fun t => step (success t)) (fun t s => hstep _ s) g st none
  have hIs : errors.Is E ErrStop = false := by
    rw [Bool.eq_false_iff, Ne, errors_Is_iff_mem_chain]
    exact hE
  refine ⟨?_, rfl, fun v => ⟨rfl, rfl⟩, ?_⟩
  · rw [Of_run, h3, hret]
    simp only [hIs, Pass.delivered, h1] at hcalls ⊢
    simp [← hcalls]
  · rw [Of_run, h3, hret]
    simp [hIs]

theorem Of_delivers_values_then_error_witness :
    ((Counter 3).run alwaysContinue () none).delivered =
        [(0 : Int), 1, 2].map success ++ [failure (Error.new "Error World!")] ∧
    (failure (Error.new "Error World!") : Entry Int).Err = some (Error.new "Error World!") ∧
    (∀ v : Int, (success v).Err = none ∧ (success v).Value = v) ∧
    ((Counter 3).run alwaysContinue () none).result = some () :=
  Of_delivers_values_then_error (countingGenerator 3 (Error.new "Error World!")) [0, 1, 2]
    (Error.new "Error World!") alwaysContinue () rfl rfl (by simp [Error.chain, ErrStop])
    (fun _ _ => rfl)

/-- C2: a generator that, as long as it is told to continue, calls its step
callback on `vs` and then returns `ErrStop` or an error whose unwrap chain
holds `ErrStop`: a pass over `Of g` with a consumer that always continues
delivers the success entries of `vs` and no error entry.  And whatever the
generator and the consumer, no entry delivered by `Of` carries an error that is
or wraps `ErrStop`. -/
theorem Of_sentinel_delivers_no_error_entry :
    (∀ (g : Generator T) (vs : List T) (E : Error) (step : Entry T → σ → Bool × σ) (st : σ),
      (g.run alwaysContinue () none).delivered = vs →
      (g.run alwaysContinue () none).result = some (some E) →
      ErrStop ∈ E.chain →
      (∀ e s, (step e s).1 = true) →
      ((Of g).run step st none).delivered = vs.map success ∧
      (∀ e ∈ ((Of g).run step st none).delivered, e.Err = none) ∧
      ((Of g).run step st none).result = some ()) ∧
    (∀ (g : Generator T) (step : Entry T → σ → Bool × σ) (st : σ) (e : Entry T) (err : Error),
      e ∈ ((Of g).run step st none).delivered → e.Err = some err → ErrStop ∉ err.chain) := by
  constructor
  · intro g vs E step st hcalls hret hE hstep
    obtain ⟨h1, -, h3⟩ :=
      run_of_continue (fun t => step (success t)) (fun t s => hstep _ s) g st none
    have hIs : errors.Is E ErrStop = true := (errors_Is_iff_mem_chain E ErrStop).2 hE
    have hd : ((Of g).run step st none).delivered = vs.map success := by
      rw [Of_run, h3, hret]
      simp only [hIs, Pass.delivered, h1] at hcalls ⊢
      simp [← hcalls]
    refine ⟨hd, ?_, ?_⟩
    · rw [hd]
      intro e he
      obtain ⟨v, -, rfl⟩ := List.mem_map.1 he
      rfl
    · rw [Of_run, h3, hret]
      simp [hIs]
  · intro g step st e err he herr
    simp only [Pass.delivered, List.mem_map] at he
    obtain ⟨a, ha, rfl⟩ := he
    rcases Of_log step g st none with hlog | ⟨e', b, -, hIs, hlog⟩
    · rw [hlog] at ha
      obtain ⟨c, -, rfl⟩ := List.mem_map.1 ha
      simp [success, Entry.Err] at herr
    · rw [hlog, List.mem_append] at ha
      rcases ha with ha | ha
      · obtain ⟨c, -, rfl⟩ := List.mem_map.1 ha
        simp [success, Entry.Err] at herr
      · simp only [List.mem_singleton] at ha
        subst ha
        simp only [failure, Entry.Err, Option.some.injEq] at herr
        subst herr
        rw [← errors_Is_iff_mem_chain, hIs]
        simp

theorem Of_sentinel_delivers_no_error_entry_witness :
    ((Of stopGenerator).run alwaysContinue () none).delivered = [(0 : Int)].map success ∧
    (∀ e ∈ ((Of stopGenerator).run alwaysContinue () none).delivered, e.Err = none) ∧
    ((Of stopGenerator).run alwaysContinue () none).result = some () :=
  (@Of_sentinel_delivers_no_error_entry Int Unit _).1 stopGenerator [0] ErrStop alwaysContinue ()
    rfl rfl (by simp [Error.chain, ErrStop]) (fun _ _ => rfl)

/-- C3: when the generator returns nil, the entries that a pass over `Of g`
delivers are the values the generator passed to its step callback, in order,
each as a success entry; no error entry is delivered, whatever the consumer. -/
theorem Of_nil_delivers_only_successes (g : Generator T) (step : Entry T → σ → Bool × σ) (st : σ)
    (hnil : (g.run (fun t => step (success t)) st none).result = some none) :
    ((Of g).run step st none).delivered =
        (g.run (fun t => step (success t)) st none).delivered.map success ∧
    (∀ e ∈ ((Of g).run step st none).delivered, e.Err = none) ∧
    ((Of g).run step st none).result = some () := by
  have hd : ((Of g).run step st none).delivered =
      (g.run (fun t => step (success t)) st none).delivered.map success := by
    rw [Of_run, hnil]
    simp [Pass.delivered]
  refine ⟨hd, ?_, ?_⟩
  · rw [hd]
    intro e he
    obtain ⟨v, -, rfl⟩ := List.mem_map.1 he
    rfl
  · rw [Of_run, hnil]

theorem Of_nil_delivers_only_successes_witness :
    ((Of (countingGenerator 3 ErrStop)).run (fun _ (_ : Unit) => (false, ())) () none).delivered =
        [(0 : Int)].map success ∧
    (∀ e ∈ ((Of (countingGenerator 3 ErrStop)).run (fun _ (_ : Unit) => (false, ())) () none).delivered,
      e.Err = none) ∧
    ((Of (countingGenerator 3 ErrStop)).run (fun _ (_ : Unit) => (false, ())) () none).result =
      some () :=
  Of_nil_delivers_only_successes (countingGenerator 3 ErrStop) (fun _ (_ : Unit) => (false, ())) ()
    rfl

end OfClaims

/-! ## The claims about `Unwrap` -/

section UnwrapClaims

variable {T σ : Type}

/-- C4: for a fallible sequence that delivers the entries `es` when it is
never told to stop, and a consumer that always continues, `Unwrap` yields the
`Value()` of the entries before the first error entry, in order; when there is
an error entry, the first one is not yielded, nothing after it is, and the
slot holds its `Err()`; when there is none, every value is yielded and the
slot is as it was. -/
theorem Unwrap_yields_until_first_error (s : Seq T) (es : List (Entry T))
    (step : T → σ → Bool × σ) (st : σ) (sl : Option Error)
    (hs : (s.run alwaysContinue () none).delivered = es)
    (hstep : ∀ v c, (step v c).1 = true) :
    (∀ pre e post, es = pre ++ e :: post → (∀ x ∈ pre, x.Err = none) → e.Err ≠ none →
      ((Seq.Unwrap s).run step st sl).delivered = pre.map Entry.Value ∧
      ((Seq.Unwrap s).run step st sl).slot = e.Err) ∧
    ((∀ x ∈ es, x.Err = none) →
      ((Seq.Unwrap s).run step st sl).delivered = es.map Entry.Value ∧
      ((Seq.Unwrap s).run step st sl).slot = sl) := by
  obtain ⟨hd, hslot⟩ := Unwrap_run_of_continue step hstep s st sl
  rw [hs] at hd hslot
  constructor
  · intro pre e post hes hpre he
    have hne : e.Err.isNone = false := by
      cases h : e.Err with
      | none => exact absurd h he
      | some err => rfl
    have hsome : e.Err.isSome = true := by
      cases h : e.Err with
      | none => exact absurd h he
      | some err => rfl
    have htake : es.takeWhile (fun e => e.Err.isNone) = pre := by
      rw [hes]
      exact takeWhile_before_first _ pre e post (fun x hx => by simp [hpre x hx]) hne
    have hfind : es.find? (fun e => e.Err.isSome) = some e := by
      rw [hes]
      exact find_first _ pre e post (fun x hx => by simp [hpre x hx]) hsome
    rw [htake] at hd
    rw [hfind] at hslot
    exact ⟨hd, hslot⟩
  · intro hall
    have htake : es.takeWhile (fun e => e.Err.isNone) = es := by
      rw [List.takeWhile_eq_self_iff]
      intro x hx
      simp [hall x hx]
    have hfind : es.find? (fun e => e.Err.isSome) = none := by
      rw [List.find?_eq_none]
      intro x hx
      simp [hall x hx]
    rw [htake] at hd
    rw [hfind] at hslot
    exact ⟨hd, hslot⟩

theorem Unwrap_yields_until_first_error_witness :
    (∀ pre e post,
      [success (0 : Int), success 1, success 2, failure (Error.new "Error World!")] =
        pre ++ e :: post →
      (∀ x ∈ pre, x.Err = none) → e.Err ≠ none →
      ((Seq.Unwrap (Counter 3)).run alwaysContinue () none).delivered = pre.map Entry.Value ∧
      ((Seq.Unwrap (Counter 3)).run alwaysContinue () none).slot = e.Err) ∧
    ((∀ x ∈ [success (0 : Int), success 1, success 2, failure (Error.new "Error World!")],
        x.Err = none) →
      ((Seq.Unwrap (Counter 3)).run alwaysContinue () none).delivered =
        [success (0 : Int), success 1, success 2, failure (Error.new "Error World!")].map
          Entry.Value ∧
      ((Seq.Unwrap (Counter 3)).run alwaysContinue () none).slot = none) :=
  Unwrap_yields_until_first_error (Counter 3)
    [success 0, success 1, success 2, failure (Error.new "Error World!")] alwaysContinue () none
    rfl (fun _ _ => rfl)

/-- C5: round trip.  For every slice `S`, collecting
`Just(slices.Values(S)).Unwrap(&slot)` with the slot absent at the start gives
the elements of `S` in their order and leaves the slot absent; the pass
returns. -/
theorem Unwrap_Just_round_trip (S : List T) :
    slicesCollect (Seq.Unwrap (Just (slicesValues S))) none = (some S, none) ∧
    ((Seq.Unwrap (Just (slicesValues S))).run collectStep [] none).result = some () := by
  obtain ⟨h1, h2, h3⟩ := Unwrap_Just_slicesValues_run S [] none
  simp only [List.nil_append] at h1
  exact ⟨by simp [slicesCollect, h1, h2, h3], h3⟩

/-- C6: for every `n` and every error `E` that neither is nor wraps `ErrStop`,
collecting `Unwrap(&slot)` over `Of` of the counting generator returns, gives
`[0, ..., n-1]` and leaves `E` in the slot, whatever the slot held before. -/
theorem Unwrap_Counter_collect (n : Nat) (E : Error) (sl : Option Error)
    (hE : ErrStop ∉ E.chain) :
    slicesCollect (Seq.Unwrap (Of (countingGenerator n E))) sl =
      (some ((List.range n).map Nat.cast), some E) ∧
    ((Seq.Unwrap (Of (countingGenerator n E))).run collectStep [] sl).result = some () := by
  have hIs : errors.Is E ErrStop = false := by
    rw [Bool.eq_false_iff, Ne, errors_Is_iff_mem_chain]
    exact hE
  obtain ⟨h1, h2, h3⟩ := Unwrap_Of_countFrom_run E hIs n 0 [] sl
  simp only [Nat.cast_zero, List.nil_append] at h1 h2 h3
  have hgen : countingGenerator n E = countFrom E n 0 := by
    simp [countingGenerator]
  rw [hgen]
  exact ⟨by simp [slicesCollect, h1, h2, h3, List.range_eq_range'], h3⟩

theorem Unwrap_Counter_collect_witness :
    slicesCollect (Seq.Unwrap (Counter 3)) none =
        (some [0, 1, 2], some (Error.new "Error World!")) ∧
    ((Seq.Unwrap (Counter 3)).run collectStep [] none).result = some () :=
  Unwrap_Counter_collect 3 (Error.new "Error World!") none (by simp [Error.chain, ErrStop])

/-- C7: whatever the fallible sequence, the consumer and the content `e0` of
the slot: when the consumer of `Unwrap`'s output returns stop on a value, that
value is the last one yielded and the slot still holds `e0`; and the loop body
of `Unwrap` hands the consumer's answer to the fallible sequence, which is
resumed with false, under a range statement that is over. -/
theorem Unwrap_consumer_stop (s : Seq T) (e0 : Option Error) (step : T → σ → Bool × σ) (st : σ)
    (pre : List (T × Bool)) (v : T) (post : List (T × Bool))
    (hstop : ((Seq.Unwrap s).run step st e0).log = pre ++ (v, false) :: post) :
    post = [] ∧
    ((Seq.Unwrap s).run step st e0).slot = e0 ∧
    (∀ (e : Entry T) (k : Bool → Seq T), e.Err = none →
      Seq.Unwrap (Prog.yield e k) =
        Prog.yield e.Value (fun ok => if ok then Seq.Unwrap (k true) else afterExit (k false))) := by
  obtain ⟨h1, h2⟩ := Unwrap_log_stop step s st e0 pre v post hstop
  exact ⟨h1, h2, fun e k he => Unwrap_yield_success e k he⟩

theorem Unwrap_consumer_stop_witness :
    ((Seq.Unwrap (Counter 3)).run stopNow () (some (Error.new "earlier"))).log =
        [] ++ ((0 : Int), false) :: [] ∧
    ([] : List (Int × Bool)) = [] ∧
    ((Seq.Unwrap (Counter 3)).run stopNow () (some (Error.new "earlier"))).slot =
        some (Error.new "earlier") ∧
    (∀ (e : Entry Int) (k : Bool → Seq Int), e.Err = none →
      Seq.Unwrap (Prog.yield e k) =
        Prog.yield e.Value (fun ok => if ok then Seq.Unwrap (k true) else afterExit (k false))) :=
  ⟨rfl, Unwrap_consumer_stop (Counter 3) (some (Error.new "earlier")) stopNow () [] 0 [] rfl⟩

end UnwrapClaims

/-! ## Passes over `Of` that a consumer stops -/

section OfStopPass

variable {T σ : Type} [Inhabited T]

/-- A function that makes no call to its step callback leaves an empty log. -/
theorem silent_log {W Y R : Type} (step : Y → σ → Bool × σ) (p : Prog W Y R)
    (hp : p.silent = true) (st : σ) (sl : Option W) : (p.run step st sl).log = [] := by
  induction p generalizing sl with
  | ret r => rfl
  | yield y k _ => simp [Prog.silent] at hp
  | store w k ih => simpa [Prog.run] using ih (by simpa [Prog.silent] using hp) (some w)
  | panic => rfl

/-- What `Of` delivers when the generator makes no call: nothing, or the one
error entry for the error the generator returns. -/
theorem Of_silent_log (step : Entry T → σ → Bool × σ) (g : Generator T)
    (hg : g.silent = true) (st : σ) (sl : Option Empty) :
    ((Of g).run step st sl).log = [] ∨
    ∃ e b, ((Of g).run step st sl).log = [(failure e, b)] ∧
      (g.run (fun t => step (success t)) st sl).result = some (some e) ∧
      errors.Is e ErrStop = false := by
  rcases Of_log step g st sl with h | ⟨e, b, hres, hIs, h⟩
  · left
    rw [h, silent_log _ g hg]
    rfl
  · right
    refine ⟨e, b, ?_, hres, hIs⟩
    rw [h, silent_log _ g hg]
    rfl

/-- After an entry on which the consumer stopped, a pass over `Of` of a
generator that obeys the stop delivers nothing, or the one error entry for the
error the generator returned. -/
theorem Of_log_after_stop (step : Entry T → σ → Bool × σ) (g : Generator T)
    (hg : g.obeysStop = true) (st : σ) (sl : Option Empty)
    (pre : List (Entry T × Bool)) (x : Entry T) (post : List (Entry T × Bool))
    (h : ((Of g).run step st sl).log = pre ++ (x, false) :: post) :
    post = [] ∨
    ∃ e b, post = [(failure e, b)] ∧
      (g.run (fun t => step (success t)) st sl).result = some (some e) ∧
      errors.Is e ErrStop = false := by
  induction g generalizing st pre with
  | ret r =>
      rcases Of_silent_log step (Prog.ret r) rfl st sl with h0 | ⟨e, b, h0, -, -⟩
      · rw [h0] at h
        simp at h
      · rw [h0] at h
        left
        cases pre with
        | nil =>
            simp only [List.nil_append, List.cons.injEq] at h
            exact h.2.symm
        | cons a pre' => simp at h
  | yield t k ih =>
      simp only [Prog.obeysStop, Bool.and_eq_true] at hg
      rw [Of_yield] at h
      simp only [Prog.run] at h ⊢
      cases ha : (step (success t) st).1 with
      | true =>
          rw [ha] at h
          cases pre with
          | nil => simp at h
          | cons a pre' =>
              simp only [List.cons_append, List.cons.injEq] at h
              exact ih true hg.1 (step (success t) st).2 pre' h.2
      | false =>
          rw [ha] at h
          rcases Of_silent_log step (k false) hg.2 (step (success t) st).2 sl with
            h0 | ⟨e, b, h0, hres, hIs⟩
          · rw [h0] at h
            left
            cases pre with
            | nil =>
                simp only [List.nil_append, List.cons.injEq] at h
                exact h.2.symm
            | cons a pre' => simp at h
          · rw [h0] at h
            cases pre with
            | nil =>
                simp only [List.nil_append, List.cons.injEq] at h
                right
                exact ⟨e, b, h.2.symm, hres, hIs⟩
            | cons a pre' =>
                left
                simp only [List.cons_append, List.cons.injEq] at h
                obtain ⟨-, h2⟩ := h
                cases pre' with
                | nil =>
                    simp only [List.nil_append, List.cons.injEq] at h2
                    exact h2.2.symm
                | cons a' pre'' => simp at h2
  | store w _ _ => exact w.elim
  | panic => simp [Of_panic, Prog.run] at h

/-- In a pass over `Of`, an error entry is the last entry delivered. -/
theorem Of_log_error_last (step : Entry T → σ → Bool × σ) (g : Generator T) (st : σ)
    (sl : Option Empty) (pre : List (Entry T × Bool)) (x : Entry T × Bool)
    (post : List (Entry T × Bool))
    (h : ((Of g).run step st sl).log = pre ++ x :: post) (hx : x.1.Err ≠ none) :
    post = [] := by
  induction g generalizing st pre with
  | ret r =>
      rcases Of_silent_log step (Prog.ret r) rfl st sl with h0 | ⟨e, b, h0, -, -⟩
      · rw [h0] at h
        simp at h
      · rw [h0] at h
        cases pre with
        | nil =>
            simp only [List.nil_append, List.cons.injEq] at h
            exact h.2.symm
        | cons a pre' => simp at h
  | yield t k ih =>
      rw [Of_yield] at h
      simp only [Prog.run] at h
      cases pre with
      | nil =>
          simp only [List.nil_append, List.cons.injEq] at h
          rw [← h.1] at hx
          exact absurd rfl hx
      | cons a pre' =>
          simp only [List.cons_append, List.cons.injEq] at h
          exact ih _ _ pre' h.2
  | store w _ _ => exact w.elim
  | panic => simp [Of_panic, Prog.run] at h

/-- A pass over `Of` delivers at most one error entry. -/
theorem Of_error_count (step : Entry T → σ → Bool × σ) (g : Generator T) (st : σ)
    (sl : Option Empty) :
    (((Of g).run step st sl).delivered.filter (fun e => e.Err.isSome)).length ≤ 1 := by
  rcases Of_log step g st sl with h | ⟨e, b, -, -, h⟩
  · simp only [Pass.delivered, h, List.map_map]
    rw [List.filter_eq_nil_iff.2]
    · simp
    · intro a ha
      obtain ⟨c, -, rfl⟩ := List.mem_map.1 ha
      simp [success, Entry.Err]
  · simp only [Pass.delivered, h, List.map_append, List.map_map, List.filter_append]
    rw [List.filter_eq_nil_iff.2]
    · simp only [List.nil_append]
      exact List.length_filter_le _ _
    · intro a ha
      obtain ⟨c, -, rfl⟩ := List.mem_map.1 ha
      simp [success, Entry.Err]

end OfStopPass

/-! ## The claims about `Of` and a consumer that stops -/

section OfStopClaims

variable {T σ : Type} [Inhabited T]

/-- C8: the counting generator of the tests under `Of`, with `1 ≤ k < n` and a
consumer that continues on the first `k - 1` entries and stops on the `k`-th:
the consumer is given the success entries `0, ..., k - 1` and nothing else, no
error entry among them, and the pass returns. -/
theorem Of_Counter_consumer_stop (n k : Nat) (E : Error) (step : Entry Int → σ → Bool × σ)
    (st : σ) (hk : 1 ≤ k) (hkn : k < n)
    (hans : answers step ((List.range k).map (fun i : Nat => success (i : Int))) st =
      List.replicate (k - 1) true ++ [false]) :
    ((Of (countingGenerator n E)).run step st none).delivered =
        (List.range k).map (fun i : Nat => success (i : Int)) ∧
    ((Of (countingGenerator n E)).run step st none).log.map Prod.snd =
        List.replicate (k - 1) true ++ [false] ∧
    (∀ e ∈ ((Of (countingGenerator n E)).run step st none).delivered, e.Err = none) ∧
    ((Of (countingGenerator n E)).run step st none).result = some () := by
  obtain ⟨k, rfl⟩ : ∃ k', k = k' + 1 := ⟨k - 1, by omega⟩
  simp only [Nat.add_sub_cancel] at hans ⊢
  have hans' : answers (fun t => step (success t)) ((List.range' 0 (k + 1)).map Nat.cast) st =
      List.replicate k true ++ [false] := by
    rw [answers_success, ← hans, List.range_eq_range', List.map_map]
    rfl
  obtain ⟨h1, h2⟩ := countFrom_run_stop E (fun t => step (success t)) k n 0 st (by omega) hans'
  simp only [Nat.cast_zero] at h1 h2
  have hlen : ((List.range' 0 (k + 1)).map (Nat.cast : Nat → Int)).length =
      (List.replicate k true ++ [false]).length := by simp
  have hd : ((Of (countingGenerator n E)).run step st none).delivered =
      (List.range (k + 1)).map (fun i : Nat => success (i : Int)) := by
    simp only [Pass.delivered, countingGenerator, Int.toNat_ofNat]
    rw [Of_run, h2]
    simp only [h1, List.map_map]
    rw [List.range_eq_range']
    have : (Prod.fst ∘ fun a : Int × Bool => (success a.1, a.2)) = success ∘ Prod.fst := rfl
    rw [this, ← List.map_map, List.map_fst_zip _ _ (le_of_eq hlen), List.map_map]
    rfl
  refine ⟨hd, ?_, ?_, ?_⟩
  · simp only [countingGenerator, Int.toNat_ofNat]
    rw [Of_run, h2]
    simp only [h1, List.map_map]
    have : (Prod.snd ∘ fun a : Int × Bool => (success a.1, a.2)) = Prod.snd := rfl
    rw [this, List.map_snd_zip _ _ (le_of_eq hlen.symm)]
  · rw [hd]
    intro e he
    obtain ⟨i, -, rfl⟩ := List.mem_map.1 he
    rfl
  · simp only [countingGenerator, Int.toNat_ofNat]
    rw [Of_run, h2]

theorem Of_Counter_consumer_stop_witness :
    ((Of (countingGenerator 3 (Error.new "Error World!"))).run (stopAt 2) 0 none).delivered =
        (List.range 2).map (fun i : Nat => success (i : Int)) ∧
    ((Of (countingGenerator 3 (Error.new "Error World!"))).run (stopAt 2) 0 none).log.map Prod.snd =
        List.replicate (2 - 1) true ++ [false] ∧
    (∀ e ∈ ((Of (countingGenerator 3 (Error.new "Error World!"))).run (stopAt 2) 0 none).delivered,
      e.Err = none) ∧
    ((Of (countingGenerator 3 (Error.new "Error World!"))).run (stopAt 2) 0 none).result = some () :=
  Of_Counter_consumer_stop 3 2 (Error.new "Error World!") (stopAt 2) 0 (by decide) (by decide) rfl

/-- C9, as the claim states it, fails: the generator that yields `0` and
returns an error of its own when it is told to stop makes no call after the
stop, yet `Of` calls the consumer once more, with the error entry. -/
theorem Of_delivers_error_entry_after_stop :
    cancelledGenerator.obeysStop = true ∧
    ((Of cancelledGenerator).run stopNow () none).log =
        [(success 0, false), (failure (Error.new "cancelled"), false)] ∧
    ¬ ∀ (g : Generator Int) (step : Entry Int → Unit → Bool × Unit) (st : Unit)
        (pre : List (Entry Int × Bool)) (x : Entry Int) (post : List (Entry Int × Bool)),
        g.obeysStop = true →
        ((Of g).run step st none).log = pre ++ (x, false) :: post → post = [] := by
  refine ⟨rfl, rfl, ?_⟩
  intro h
  have h1 := h cancelledGenerator stopNow () [] (success 0)
    [(failure (Error.new "cancelled"), false)] rfl rfl
  simp at h1

/-- C9, amended: for a generator that makes no call once its step callback has
returned stop, and any consumer: after an entry on which the consumer stopped,
`Of` delivers no success entry, and it delivers nothing at all when the
generator returns nil or an error that is or wraps `ErrStop`. -/
theorem Of_after_consumer_stop (g : Generator T) (step : Entry T → σ → Bool × σ) (st : σ)
    (pre : List (Entry T × Bool)) (x : Entry T) (post : List (Entry T × Bool))
    (hg : g.obeysStop = true)
    (hstop : ((Of g).run step st none).log = pre ++ (x, false) :: post) :
    (∀ y ∈ post, y.1.Err ≠ none) ∧
    ((g.run (fun t => step (success t)) st none).result = some none → post = []) ∧
    (∀ e, (g.run (fun t => step (success t)) st none).result = some (some e) →
      ErrStop ∈ e.chain → post = []) := by
  rcases Of_log_after_stop step g hg st none pre x post hstop with h | ⟨e, b, h, hres, hIs⟩
  · subst h
    simp
  · subst h
    refine ⟨?_, ?_, ?_⟩
    · intro y hy
      simp only [List.mem_singleton] at hy
      subst hy
      simp [failure, Entry.Err]
    · intro hnil
      rw [hnil] at hres
      simp at hres
    · intro e' he' hchain
      rw [he'] at hres
      simp only [Option.some.injEq] at hres
      subst hres
      rw [← errors_Is_iff_mem_chain, hIs] at hchain
      simp at hchain

theorem Of_after_consumer_stop_witness :
    (countingGenerator 3 (Error.new "Error World!")).obeysStop = true ∧
    ((Of (countingGenerator 3 (Error.new "Error World!"))).run stopNow () none).log =
        [] ++ (success 0, false) :: [] ∧
    (∀ y ∈ ([] : List (Entry Int × Bool)), y.1.Err ≠ none) ∧
    (((countingGenerator 3 (Error.new "Error World!")).run
        (fun t => stopNow (success t)) () none).result = some none →
      ([] : List (Entry Int × Bool)) = []) ∧
    (∀ e, ((countingGenerator 3 (Error.new "Error World!")).run
        (fun t => stopNow (success t)) () none).result = some (some e) →
      ErrStop ∈ e.chain → ([] : List (Entry Int × Bool)) = []) :=
  ⟨rfl, rfl, Of_after_consumer_stop (countingGenerator 3 (Error.new "Error World!")) stopNow ()
    [] (success 0) [] rfl rfl⟩

/-- C10: whatever the generator and the consumer, a pass over `Of` delivers at
most one error entry, and an error entry is the last entry the pass delivers. -/
theorem Of_error_entry_is_last (g : Generator T) (step : Entry T → σ → Bool × σ) (st : σ) :
    (((Of g).run step st none).delivered.filter (fun e => e.Err.isSome)).length ≤ 1 ∧
    (∀ (pre : List (Entry T × Bool)) (x : Entry T × Bool) (post : List (Entry T × Bool)),
      ((Of g).run step st none).log = pre ++ x :: post → x.1.Err ≠ none → post = []) :=
  ⟨Of_error_count step g st none,
    fun pre x post h hx => Of_log_error_last step g st none pre x post h hx⟩

theorem Of_error_entry_is_last_witness :
    ((Counter 3).run alwaysContinue () none).log =
        [(success 0, true), (success 1, true), (success 2, true)] ++
          (failure (Error.new "Error World!"), true) :: [] ∧
    (failure (Error.new "Error World!") : Entry Int).Err ≠ none ∧
    ([] : List (Entry Int × Bool)) = [] :=
  ⟨rfl, by simp [failure, Entry.Err],
    (Of_error_entry_is_last (countingGenerator 3 (Error.new "Error World!")) alwaysContinue ()).2
      [(success 0, true), (success 1, true), (success 2, true)]
      (failure (Error.new "Error World!"), true) [] rfl (by simp [failure, Entry.Err])⟩

end OfStopClaims

/-! ## Passes over `Just` -/

section JustPass

variable {T σ : Type}

/-- Once the loop body has terminated over a function that makes no call, the
range statement ends as that function does. -/
theorem afterExit_run_silent {W X Y : Type} (step : Y → σ → Bool × σ) (stepX : X → σ → Bool × σ)
    (p : Prog Empty X Unit) (hp : p.silent = true) (st : σ) (sl : Option W) (sl0 : Option Empty) :
    ((afterExit p : Prog W Y Unit).run step st sl).result = (p.run stepX st sl0).result ∧
    (p.run stepX st sl0).log = [] ∧ (p.run stepX st sl0).state = st := by
  cases p with
  | ret r => simp [afterExit, Prog.run]
  | yield x k => simp [Prog.silent] at hp
  | store w _ => exact w.elim
  | panic => simp [afterExit, Prog.run]

/-- Against a consumer that never stops, `Just` delivers the success entry of
each element and ends as the sequence does. -/
theorem Just_run_of_continue (step : Entry T → σ → Bool × σ)
    (hstep : ∀ e s, (step e s).1 = true) (it : IterSeq T) (st : σ) (sl : Option Empty) :
    ((Just it).run step st sl).delivered = (it.run alwaysContinue () sl).delivered.map success ∧
    ((Just it).run step st sl).result = (it.run alwaysContinue () sl).result := by
  induction it generalizing st with
  | ret r => simp [Just_ret, Prog.run, Pass.delivered]
  | yield t k ih =>
      rw [Just_yield]
      obtain ⟨h1, h2⟩ := ih true (step (success t) st).2
      simp only [Pass.delivered] at h1
      simp [Prog.run, Pass.delivered, hstep, alwaysContinue, h1, h2]
  | store w _ _ => exact w.elim
  | panic => simp [Just_panic, Prog.run, Pass.delivered]

/-- Every entry that `Just` delivers is the success entry of an element that
the sequence passed to its step callback. -/
theorem Just_delivered_success (step : Entry T → σ → Bool × σ) (it : IterSeq T) (st : σ)
    (sl : Option Empty) (e : Entry T) (he : e ∈ ((Just it).run step st sl).delivered) :
    ∃ t, t ∈ (it.run (fun t => step (success t)) st sl).delivered ∧ e = success t := by
  induction it generalizing st with
  | ret r => simp [Just_ret, Prog.run, Pass.delivered] at he
  | yield t k ih =>
      rw [Just_yield] at he
      simp only [Prog.run, Pass.delivered, List.map_cons, List.mem_cons] at he ⊢
      rcases he with rfl | he
      · exact ⟨t, Or.inl rfl, rfl⟩
      · cases ha : (step (success t) st).1 with
        | true =>
            rw [ha] at he
            obtain ⟨t', ht', rfl⟩ := ih true (step (success t) st).2 he
            exact ⟨t', Or.inr ht', rfl⟩
        | false =>
            rw [ha] at he
            obtain ⟨h1, -, -⟩ := afterExit_run (W := Empty) step (k false) (step (success t) st).2 sl
            simp [h1] at he
  | store w _ _ => exact w.elim
  | panic => simp [Just_panic, Prog.run, Pass.delivered] at he

/-- In a pass over `Just`, an entry on which the consumer stops is the last one
delivered. -/
theorem Just_log_stop (step : Entry T → σ → Bool × σ) (it : IterSeq T) (st : σ)
    (sl : Option Empty) (pre : List (Entry T × Bool)) (x : Entry T) (post : List (Entry T × Bool))
    (h : ((Just it).run step st sl).log = pre ++ (x, false) :: post) : post = [] := by
  induction it generalizing st pre with
  | ret r => simp [Just_ret, Prog.run] at h
  | yield t k ih =>
      rw [Just_yield] at h
      simp only [Prog.run] at h
      cases ha : (step (success t) st).1 with
      | true =>
          rw [ha] at h
          cases pre with
          | nil => simp at h
          | cons a pre' =>
              simp only [List.cons_append, List.cons.injEq] at h
              exact ih true (step (success t) st).2 pre' h.2
      | false =>
          rw [ha] at h
          obtain ⟨h1, -, -⟩ := afterExit_run (W := Empty) step (k false) (step (success t) st).2 sl
          simp only [Bool.false_eq_true, if_false, h1] at h
          cases pre with
          | nil =>
              simp only [List.nil_append, List.cons.injEq] at h
              exact h.2.symm
          | cons a pre' => simp at h
  | store w _ _ => exact w.elim
  | panic => simp [Just_panic, Prog.run] at h

/-- For a sequence that makes no call after a stop, a pass over `Just` is the
sequence's own pass against the callback that hands each element to the
consumer as a success entry and returns the consumer's answer. -/
theorem Just_run_obeys (step : Entry T → σ → Bool × σ) (it : IterSeq T)
    (hit : it.obeysStop = true) (st : σ) (sl : Option Empty) :
    ((Just it).run step st sl).log =
        (it.run (fun t => step (success t)) st sl).log.map (fun a => (success a.1, a.2)) ∧
    ((Just it).run step st sl).state = (it.run (fun t => step (success t)) st sl).state ∧
    ((Just it).run step st sl).result = (it.run (fun t => step (success t)) st sl).result := by
  induction it generalizing st with
  | ret r => simp [Just_ret, Prog.run]
  | yield t k ih =>
      simp only [Prog.obeysStop, Bool.and_eq_true] at hit
      rw [Just_yield]
      simp only [Prog.run]
      cases ha : (step (success t) st).1 with
      | true =>
          obtain ⟨h1, h2, h3⟩ := ih true hit.1 (step (success t) st).2
          simp [h1, h2, h3]
      | false =>
          obtain ⟨h1, h2, -⟩ :=
            afterExit_run (W := Empty) step (k false) (step (success t) st).2 sl
          obtain ⟨h3, h4, h5⟩ := afterExit_run_silent (W := Empty) step
            (fun t => step (success t)) (k false) hit.2 (step (success t) st).2 sl sl
          simp [h1, h2, h3, h4, h5]
  | store w _ _ => exact w.elim
  | panic => simp [Just_panic, Prog.run]

end JustPass

/-! ## The claims about `Just` -/

section JustClaims

variable {T σ : Type}

/-- C11: for a sequence whose elements are `xs` and a consumer that always
continues, `Just` delivers one entry per element, in order, the entry of `x`
having `Err()` absent and `Value() = x`, and ends as the sequence does.  And
whatever the sequence and the consumer, no entry delivered by `Just` carries an
error. -/
theorem Just_delivers_each_element :
    (∀ (it : IterSeq T) (xs : List T) (step : Entry T → σ → Bool × σ) (st : σ),
      (it.run alwaysContinue () none).delivered = xs →
      (∀ e s, (step e s).1 = true) →
      ((Just it).run step st none).delivered = xs.map success ∧
      (∀ x : T, (success x).Err = none ∧ (success x).Value = x) ∧
      ((Just it).run step st none).result = (it.run alwaysContinue () none).result) ∧
    (∀ (it : IterSeq T) (step : Entry T → σ → Bool × σ) (st : σ) (e : Entry T),
      e ∈ ((Just it).run step st none).delivered → e.Err = none) := by
  constructor
  · intro it xs step st hxs hstep
    obtain ⟨h1, h2⟩ := Just_run_of_continue step hstep it st none
    rw [hxs] at h1
    exact ⟨h1, fun x => ⟨rfl, rfl⟩, h2⟩
  · intro it step st e he
    obtain ⟨t, -, rfl⟩ := Just_delivered_success step it st none e he
    rfl

theorem Just_delivers_each_element_witness :
    ((Just (slicesValues [(1 : Int), 2, 3])).run alwaysContinue () none).delivered =
        [(1 : Int), 2, 3].map success ∧
    (∀ x : Int, (success x).Err = none ∧ (success x).Value = x) ∧
    ((Just (slicesValues [(1 : Int), 2, 3])).run alwaysContinue () none).result =
        ((slicesValues [(1 : Int), 2, 3]).run alwaysContinue () none).result :=
  (@Just_delivers_each_element Int Unit).1 (slicesValues [1, 2, 3]) [1, 2, 3] alwaysContinue ()
    rfl (fun _ _ => rfl)

/-- C12: for a sequence that makes no call once its step callback has returned
stop, and any consumer: when the consumer stops on an entry, `Just` delivers
nothing after it, and the sequence's calls are the entries the consumer was
given, each answered as the consumer answered, the last one with stop; the loop
body hands the consumer's answer for an element back to the sequence. -/
theorem Just_consumer_stop (it : IterSeq T) (step : Entry T → σ → Bool × σ) (st : σ)
    (pre : List (Entry T × Bool)) (x : Entry T) (post : List (Entry T × Bool))
    (hit : it.obeysStop = true)
    (hstop : ((Just it).run step st none).log = pre ++ (x, false) :: post) :
    post = [] ∧
    (it.run (fun t => step (success t)) st none).log.map (fun a => (success a.1, a.2)) =
        pre ++ [(x, false)] ∧
    (∀ (t : T) (k : Bool → IterSeq T),
      Just (Prog.yield t k) =
        Prog.yield (success t) (fun ok => if ok then Just (k true) else afterExit (k false))) := by
  have hpost : post = [] := Just_log_stop step it st none pre x post hstop
  obtain ⟨h1, -, -⟩ := Just_run_obeys step it hit st none
  refine ⟨hpost, ?_, fun t k => Just_yield t k⟩
  rw [← h1, hstop, hpost]

theorem Just_consumer_stop_witness :
    (slicesValues [(1 : Int), 2, 3]).obeysStop = true ∧
    ((Just (slicesValues [(1 : Int), 2, 3])).run (stopAt 2) 0 none).log =
        [(success 1, true)] ++ (success 2, false) :: [] ∧
    ([] : List (Entry Int × Bool)) = [] ∧
    ((slicesValues [(1 : Int), 2, 3]).run (fun t => stopAt 2 (success t)) 0 none).log.map
        (fun a => (success a.1, a.2)) = [(success 1, true)] ++ [(success 2, false)] ∧
    (∀ (t : Int) (k : Bool → IterSeq Int),
      Just (Prog.yield t k) =
        Prog.yield (success t) (fun ok => if ok then Just (k true) else afterExit (k false))) :=
  ⟨rfl, rfl, Just_consumer_stop (slicesValues [1, 2, 3]) (stopAt 2) 0 [(success 1, true)]
    (success 2) [] rfl rfl⟩

end JustClaims

/-! ## The key/value variant along the interaction -/

section Unfold2

variable {K V : Type}

theorem Of2_ret_none [Inhabited K] [Inhabited V] :
    Of2 (Prog.ret none : Generator2 K V) = Prog.ret () := rfl

theorem Of2_ret_some [Inhabited K] [Inhabited V] (e : Error) :
    Of2 (Prog.ret (some e) : Generator2 K V) =
      if errors.Is e ErrStop then Prog.ret () else Prog.yield (failure2 e) (fun _ => Prog.ret ()) := by
  cases h : errors.Is e ErrStop <;> simp [Of2, call, Prog.bind, h, emit, failure2]

theorem Of2_yield [Inhabited K] [Inhabited V] (kv : K × V) (k : Bool → Generator2 K V) :
    Of2 (Prog.yield kv k) = Prog.yield (success2 kv) (fun b => Of2 (k b)) := by
  simp [Of2, call, Prog.bind, emit, success2]

theorem Of2_panic [Inhabited K] [Inhabited V] :
    Of2 (Prog.panic : Generator2 K V) = Prog.panic := rfl

theorem Just2_ret (u : Unit) : Just2 (Prog.ret u : IterSeq2 K V) = Prog.ret () := rfl

theorem Just2_yield (kv : K × V) (k : Bool → IterSeq2 K V) :
    Just2 (Prog.yield kv k) =
      Prog.yield (success2 kv) (fun b => if b then Just2 (k true) else afterExit (k false)) := by
  simp only [Just2, forRange, Prog.bind, emit, success2]
  congr 1
  funext b
  cases b <;> simp [Prog.bind]

theorem Just2_panic : Just2 (Prog.panic : IterSeq2 K V) = Prog.panic := rfl

theorem Unwrap2_ret (u : Unit) : Seq2.Unwrap (Prog.ret u : Seq2 K V) = Prog.ret () := rfl

theorem Unwrap2_yield_failure (e : Entry2 K V) (err : Error) (k : Bool → Seq2 K V)
    (h : e.Err = some err) :
    Seq2.Unwrap (Prog.yield e k) = Prog.store err (afterExit (k false)) := by
  simp [Seq2.Unwrap, forRange, Prog.bind, h]

theorem Unwrap2_yield_success (e : Entry2 K V) (k : Bool → Seq2 K V) (h : e.Err = none) :
    Seq2.Unwrap (Prog.yield e k) =
      Prog.yield (e.Key, e.Value)
        (fun b => if b then Seq2.Unwrap (k true) else afterExit (k false)) := by
  simp only [Seq2.Unwrap, forRange, Prog.bind, emit, h]
  congr 1
  funext b
  cases b <;> simp [Prog.bind]

theorem Unwrap2_panic : Seq2.Unwrap (Prog.panic : Seq2 K V) = Prog.panic := rfl

end Unfold2

/-! ## Passes over the key/value variant -/

section Pass2

variable {K V σ : Type}

/-- A pass over `Of2 g` is the generator's own pass against the wrapper step
callback, followed by the delivery of the error entry when the generator
returned an error that is not the sentinel. -/
theorem Of2_log [Inhabited K] [Inhabited V] (step : Entry2 K V → σ → Bool × σ)
    (g : Generator2 K V) (st : σ) (sl : Option Empty) :
    (((Of2 g).run step st sl).log =
        (g.run (fun kv => step (success2 kv)) st sl).log.map (fun a => (success2 a.1, a.2)) ∧
      (∀ e, (g.run (fun kv => step (success2 kv)) st sl).result = some (some e) →
        errors.Is e ErrStop = true) ∧
      (((Of2 g).run step st sl).result = none ↔
        (g.run (fun kv => step (success2 kv)) st sl).result = none)) ∨
    ∃ e b, (g.run (fun kv => step (success2 kv)) st sl).result = some (some e) ∧
      errors.Is e ErrStop = false ∧
      ((Of2 g).run step st sl).result = some () ∧
      ((Of2 g).run step st sl).log =
        (g.run (fun kv => step (success2 kv)) st sl).log.map (fun a => (success2 a.1, a.2)) ++
          [(failure2 e, b)] := by
  induction g generalizing st with
  | ret r =>
      cases r with
      | none => simp [Of2_ret_none, Prog.run]
      | some e =>
          rw [Of2_ret_some]
          cases h : errors.Is e ErrStop
          · right
            exact ⟨e, (step (failure2 e) st).1, rfl, h, by simp [Prog.run], by simp [Prog.run]⟩
          · left
            simp [Prog.run, h]
  | yield kv k ih =>
      rw [Of2_yield]
      simp only [Prog.run]
      rcases ih (step (success2 kv) st).1 (step (success2 kv) st).2 with
        ⟨h1, h2, h3⟩ | ⟨e, b, h1, h2, h3, h4⟩
      · left
        exact ⟨by simp [h1], h2, h3⟩
      · right
        exact ⟨e, b, h1, h2, h3, by simp [h4]⟩
  | store w _ _ => exact w.elim
  | panic => simp [Of2_panic, Prog.run]

/-- Against a consumer that never stops, `Just2` delivers the success entry of
each pair and ends as the sequence does. -/
theorem Just2_run_of_continue (step : Entry2 K V → σ → Bool × σ)
    (hstep : ∀ e s, (step e s).1 = true) (it : IterSeq2 K V) (st : σ) (sl : Option Empty) :
    ((Just2 it).run step st sl).delivered = (it.run alwaysContinue () sl).delivered.map success2 ∧
    ((Just2 it).run step st sl).result = (it.run alwaysContinue () sl).result := by
  induction it generalizing st with
  | ret r => simp [Just2_ret, Prog.run, Pass.delivered]
  | yield kv k ih =>
      rw [Just2_yield]
      obtain ⟨h1, h2⟩ := ih true (step (success2 kv) st).2
      simp only [Pass.delivered] at h1
      simp [Prog.run, Pass.delivered, hstep, alwaysContinue, h1, h2]
  | store w _ _ => exact w.elim
  | panic => simp [Just2_panic, Prog.run, Pass.delivered]

/-- Every entry that `Just2` delivers is the success entry of a pair that the
sequence passed to its step callback. -/
theorem Just2_delivered_success (step : Entry2 K V → σ → Bool × σ) (it : IterSeq2 K V) (st : σ)
    (sl : Option Empty) (e : Entry2 K V) (he : e ∈ ((Just2 it).run step st sl).delivered) :
    ∃ kv, kv ∈ (it.run (fun kv => step (success2 kv)) st sl).delivered ∧ e = success2 kv := by
  induction it generalizing st with
  | ret r => simp [Just2_ret, Prog.run, Pass.delivered] at he
  | yield kv k ih =>
      rw [Just2_yield] at he
      simp only [Prog.run, Pass.delivered, List.map_cons, List.mem_cons] at he ⊢
      rcases he with rfl | he
      · exact ⟨kv, Or.inl rfl, rfl⟩
      · cases ha : (step (success2 kv) st).1 with
        | true =>
            rw [ha] at he
            obtain ⟨kv', hkv', rfl⟩ := ih true (step (success2 kv) st).2 he
            exact ⟨kv', Or.inr hkv', rfl⟩
        | false =>
            rw [ha] at he
            obtain ⟨h1, -, -⟩ :=
              afterExit_run (W := Empty) step (k false) (step (success2 kv) st).2 sl
            simp [h1] at he
  | store w _ _ => exact w.elim
  | panic => simp [Just2_panic, Prog.run, Pass.delivered] at he

/-- Against a consumer that never stops, `Seq2.Unwrap` yields the pairs of the
entries before the first error entry, and the slot ends up with that entry's
error, or as it was when there is none. -/
theorem Unwrap2_run_of_continue (step : K × V → σ → Bool × σ)
    (hstep : ∀ v c, (step v c).1 = true) (s : Seq2 K V) (st : σ) (sl : Option Error) :
    ((Seq2.Unwrap s).run step st sl).delivered =
        ((s.run alwaysContinue () none).delivered.takeWhile (fun e => e.Err.isNone)).map
          (fun e => (e.Key, e.Value)) ∧
    ((Seq2.Unwrap s).run step st sl).slot =
        match (s.run alwaysContinue () none).delivered.find? (fun e => e.Err.isSome) with
        | some e => e.Err
        | none => sl := by
  induction s generalizing st with
  | ret r => simp [Unwrap2_ret, Prog.run, Pass.delivered]
  | yield e k ih =>
      cases h : e.Err with
      | some err =>
          rw [Unwrap2_yield_failure e err k h]
          obtain ⟨h1, -, h3⟩ := afterExit_run (Y := K × V) step (k false) st (some err)
          simp [Prog.run, Pass.delivered, h1, h3, h, alwaysContinue]
      | none =>
          rw [Unwrap2_yield_success e k h]
          obtain ⟨h1, h2⟩ := ih true (step (e.Key, e.Value) st).2
          simp only [Pass.delivered] at h1
          simp [Prog.run, Pass.delivered, hstep, h, alwaysContinue, h1, h2]
  | store w _ _ => exact w.elim
  | panic => simp [Unwrap2_panic, Prog.run, Pass.delivered]

/-- The pair counting loop with `n` rounds left from `m`, never told to stop:
its calls and what it returns. -/
theorem countFrom2_run (E : Error) (n m : Nat) :
    ((countFrom2 E n m).run alwaysContinue () none).delivered =
        (List.range' m n).map (fun i : Nat => ((i : Int), strconv.Itoa i)) ∧
    ((countFrom2 E n m).run alwaysContinue () none).result = some (some E) := by
  induction n generalizing m with
  | zero => simp [countFrom2, Prog.run, Pass.delivered]
  | succ n ih =>
      obtain ⟨h1, h2⟩ := ih (m + 1)
      simp only [Nat.cast_add, Nat.cast_one, Pass.delivered] at h1 h2
      simp [countFrom2, Prog.run, Pass.delivered, alwaysContinue, h1, h2, List.range'_succ]

/-- What `Seq2.Unwrap` yields and stores when the entries of the sequence are
`pre`, free of errors, then an error entry `e`. -/
theorem Unwrap2_until_first (step : K × V → σ → Bool × σ) (hstep : ∀ v c, (step v c).1 = true)
    (s : Seq2 K V) (st : σ) (sl : Option Error) (pre : List (Entry2 K V)) (e : Entry2 K V)
    (post : List (Entry2 K V)) (hs : (s.run alwaysContinue () none).delivered = pre ++ e :: post)
    (hpre : ∀ x ∈ pre, x.Err = none) (he : e.Err ≠ none) :
    ((Seq2.Unwrap s).run step st sl).delivered = pre.map (fun x => (x.Key, x.Value)) ∧
    ((Seq2.Unwrap s).run step st sl).slot = e.Err := by
  obtain ⟨hd, hslot⟩ := Unwrap2_run_of_continue step hstep s st sl
  rw [hs] at hd hslot
  have hne : e.Err.isNone = false := by
    cases h : e.Err with
    | none => exact absurd h he
    | some err => rfl
  have hsome : e.Err.isSome = true := by
    cases h : e.Err with
    | none => exact absurd h he
    | some err => rfl
  rw [takeWhile_before_first _ pre e post (fun x hx => by simp [hpre x hx]) hne] at hd
  rw [find_first _ pre e post (fun x hx => by simp [hpre x hx]) hsome] at hslot
  exact ⟨hd, hslot⟩

/-- What `Seq2.Unwrap` yields when no entry of the sequence carries an error. -/
theorem Unwrap2_all_success (step : K × V → σ → Bool × σ) (hstep : ∀ v c, (step v c).1 = true)
    (s : Seq2 K V) (st : σ) (sl : Option Error)
    (hall : ∀ x ∈ (s.run alwaysContinue () none).delivered, x.Err = none) :
    ((Seq2.Unwrap s).run step st sl).delivered =
        (s.run alwaysContinue () none).delivered.map (fun x => (x.Key, x.Value)) ∧
    ((Seq2.Unwrap s).run step st sl).slot = sl := by
  obtain ⟨hd, hslot⟩ := Unwrap2_run_of_continue step hstep s st sl
  have htake : (s.run alwaysContinue () none).delivered.takeWhile (fun e => e.Err.isNone) =
      (s.run alwaysContinue () none).delivered := by
    rw [List.takeWhile_eq_self_iff]
    intro x hx
    simp [hall x hx]
  have hfind : (s.run alwaysContinue () none).delivered.find? (fun e => e.Err.isSome) = none := by
    rw [List.find?_eq_none]
    intro x hx
    simp [hall x hx]
  rw [htake] at hd
  rw [hfind] at hslot
  exact ⟨hd, hslot⟩

/-- What `Of2` delivers to a consumer that never stops, for a generator that,
never told to stop, calls its step callback on `kvs` and returns `r`. -/
theorem Of2_run_of_continue [Inhabited K] [Inhabited V] (step : Entry2 K V → σ → Bool × σ)
    (hstep : ∀ e s, (step e s).1 = true) (g : Generator2 K V) (st : σ) (kvs : List (K × V))
    (r : Option Error) (hcalls : (g.run alwaysContinue () none).delivered = kvs)
    (hret : (g.run alwaysContinue () none).result = some r) :
    ((Of2 g).run step st none).result = some () ∧
    ((∀ e, r = some e → errors.Is e ErrStop = true) →
      ((Of2 g).run step st none).delivered = kvs.map success2) ∧
    (∀ e, r = some e → errors.Is e ErrStop = false →
      ((Of2 g).run step st none).delivered = kvs.map success2 ++ [failure2 e]) := by
  obtain ⟨h1, -, h3⟩ :=
    run_of_continue (fun kv => step (success2 kv)) (fun kv s => hstep _ s) g st none
  rw [hret] at h3
  simp only [Pass.delivered] at hcalls ⊢
  rcases Of2_log step g st none with ⟨hl, hs, hn⟩ | ⟨e, b, hres, hIs, hr, hl⟩
  · refine ⟨?_, ?_, ?_⟩
    · cases hres : ((Of2 g).run step st none).result with
      | none =>
          rw [hn.1 hres] at h3
          simp at h3
      | some u => rfl
    · intro _
      rw [hl, h1, List.map_map, ← hcalls, List.map_map]
      rfl
    · intro e he hIs
      subst he
      rw [hs e h3] at hIs
      simp at hIs
  · rw [h3] at hres
    simp only [Option.some.injEq] at hres
    subst hres
    refine ⟨hr, ?_, ?_⟩
    · intro hall
      rw [hall e rfl] at hIs
      simp at hIs
    · intro e' he' _
      simp only [Option.some.injEq] at he'
      subst he'
      rw [hl, h1, List.map_append, List.map_map, ← hcalls, List.map_map]
      rfl

/-- A pass over `Seq2.Unwrap` of `Of2` of the pair counting loop with `n` rounds
left from `m`, against a consumer that never stops: it yields the pairs of
`m, ..., m + n - 1`, stores the generator's error and returns. -/
theorem Unwrap2_Of2_countFrom2_run (E : Error) (hE : errors.Is E ErrStop = false)
    (step : Int × String → σ → Bool × σ) (hstep : ∀ v c, (step v c).1 = true) (n m : Nat)
    (st : σ) (sl : Option Error) :
    ((Seq2.Unwrap (Of2 (countFrom2 E n m))).run step st sl).delivered =
        (List.range' m n).map (fun i : Nat => ((i : Int), strconv.Itoa i)) ∧
    ((Seq2.Unwrap (Of2 (countFrom2 E n m))).run step st sl).slot = some E ∧
    ((Seq2.Unwrap (Of2 (countFrom2 E n m))).run step st sl).result = some () := by
  induction n generalizing m st with
  | zero =>
      rw [countFrom2, Of2_ret_some, hE]
      simp only [Bool.false_eq_true, if_false]
      rw [Unwrap2_yield_failure (failure2 E) E _ rfl]
      simp [Prog.run, afterExit, Pass.delivered]
  | succ n ih =>
      rw [countFrom2, Of2_yield,
        Unwrap2_yield_success (success2 ((m : Int), strconv.Itoa (m : Int))) _ rfl]
      obtain ⟨h1, h2, h3⟩ := ih (m + 1) (step ((m : Int), strconv.Itoa (m : Int)) st).2
      simp only [Nat.cast_add, Nat.cast_one, Pass.delivered] at h1 h2 h3
      simp [Prog.run, Pass.delivered, success2, Entry2.Key, Entry2.Value, hstep, h1, h2, h3,
        List.range'_succ]

end Pass2

/-! ## The claims about the key/value variant -/

section Claims2

variable {K V σ : Type}

/-- C14: a pair generator that, as long as it is told to continue, calls its
step callback on the pairs `(i, strconv.Itoa(i))` for `i = 0, ..., n - 1` and
then returns `E`, under `Of2` with a consumer that always continues.  When `E`
neither is nor wraps `ErrStop`, the consumer is given the `n` success entries
with `Key() = i` and `Value() = strconv.Itoa(i)`, in order, then one error entry
with `Err() = E`, and nothing else.  When the generator returns nil, or an
error that is or wraps `ErrStop`, the consumer is given the success entries
only. -/
theorem Of2_counting_contract :
    (∀ (g : Generator2 Int String) (n : Nat) (E : Error)
        (step : Entry2 Int String → σ → Bool × σ) (st : σ),
      (g.run alwaysContinue () none).delivered =
        (List.range n).map (fun i : Nat => ((i : Int), strconv.Itoa i)) →
      (g.run alwaysContinue () none).result = some (some E) →
      ErrStop ∉ E.chain →
      (∀ e s, (step e s).1 = true) →
      ((Of2 g).run step st none).delivered =
          (List.range n).map (fun i : Nat => success2 ((i : Int), strconv.Itoa i)) ++
            [failure2 E] ∧
      (∀ i : Int, (success2 (i, strconv.Itoa i)).Err = none ∧
        (success2 (i, strconv.Itoa i)).Key = i ∧
        (success2 (i, strconv.Itoa i)).Value = strconv.Itoa i) ∧
      (failure2 E : Entry2 Int String).Err = some E ∧
      ((Of2 g).run step st none).result = some ()) ∧
    (∀ (g : Generator2 Int String) (n : Nat) (r : Option Error)
        (step : Entry2 Int String → σ → Bool × σ) (st : σ),
      (g.run alwaysContinue () none).delivered =
        (List.range n).map (fun i : Nat => ((i : Int), strconv.Itoa i)) →
      (g.run alwaysContinue () none).result = some r →
      (∀ e, r = some e → ErrStop ∈ e.chain) →
      (∀ e s, (step e s).1 = true) →
      ((Of2 g).run step st none).delivered =
          (List.range n).map (fun i : Nat => success2 ((i : Int), strconv.Itoa i)) ∧
      (∀ e ∈ ((Of2 g).run step st none).delivered, e.Err = none)) := by
  constructor
  · intro g n E step st hcalls hret hE hstep
    obtain ⟨h1, -, h3⟩ := Of2_run_of_continue step hstep g st _ (some E) hcalls hret
    have hIs : errors.Is E ErrStop = false := by
      rw [Bool.eq_false_iff, Ne, errors_Is_iff_mem_chain]
      exact hE
    refine ⟨?_, fun i => ⟨rfl, rfl, rfl⟩, rfl, h1⟩
    rw [h3 E rfl hIs, List.map_map]
    rfl
  · intro g n r step st hcalls hret hr hstep
    obtain ⟨-, h2, -⟩ := Of2_run_of_continue step hstep g st _ r hcalls hret
    have hd := h2 (fun e he => (errors_Is_iff_mem_chain e ErrStop).2 (hr e he))
    refine ⟨?_, ?_⟩
    · rw [hd, List.map_map]
      rfl
    · rw [hd]
      intro e he
      obtain ⟨kv, -, rfl⟩ := List.mem_map.1 he
      rfl

theorem Of2_counting_contract_witness :
    ((Counter2 3).run alwaysContinue () none).delivered =
        (List.range 3).map (fun i : Nat => success2 ((i : Int), strconv.Itoa i)) ++
          [failure2 (Error.new "Error World!")] ∧
    (∀ i : Int, (success2 (i, strconv.Itoa i)).Err = none ∧
      (success2 (i, strconv.Itoa i)).Key = i ∧
      (success2 (i, strconv.Itoa i)).Value = strconv.Itoa i) ∧
    (failure2 (Error.new "Error World!") : Entry2 Int String).Err =
        some (Error.new "Error World!") ∧
    ((Counter2 3).run alwaysContinue () none).result = some () :=
  (@Of2_counting_contract Unit).1 (countingGenerator2 3 (Error.new "Error World!")) 3
    (Error.new "Error World!") alwaysContinue () rfl rfl (by simp [Error.chain, ErrStop])
    (fun _ _ => rfl)

/-- C15: for a fallible pair sequence that delivers the entries `es` when it is
never told to stop, and a consumer that always continues, `Seq2.Unwrap` yields
the `(Key(), Value())` pair of the entries before the first error entry, in
order, does not yield that entry nor anything after it, and stores its error
in the slot; without an error entry it yields every pair and leaves the slot.
Over the pair counting sequence with an error `E` that neither is nor wraps
`ErrStop` it yields `(0, "0"), ..., (n - 1, strconv.Itoa(n - 1))`, leaves `E` in
the slot, and the pass returns. -/
theorem Unwrap2_yields_until_first_error :
    (∀ (s : Seq2 K V) (es : List (Entry2 K V)) (step : K × V → σ → Bool × σ) (st : σ)
        (sl : Option Error),
      (s.run alwaysContinue () none).delivered = es →
      (∀ v c, (step v c).1 = true) →
      (∀ pre e post, es = pre ++ e :: post → (∀ x ∈ pre, x.Err = none) → e.Err ≠ none →
        ((Seq2.Unwrap s).run step st sl).delivered = pre.map (fun x => (x.Key, x.Value)) ∧
        ((Seq2.Unwrap s).run step st sl).slot = e.Err) ∧
      ((∀ x ∈ es, x.Err = none) →
        ((Seq2.Unwrap s).run step st sl).delivered = es.map (fun x => (x.Key, x.Value)) ∧
        ((Seq2.Unwrap s).run step st sl).slot = sl)) ∧
    (∀ (n : Nat) (E : Error) (step : Int × String → σ → Bool × σ) (st : σ) (sl : Option Error),
      ErrStop ∉ E.chain →
      (∀ v c, (step v c).1 = true) →
      ((Seq2.Unwrap (Of2 (countingGenerator2 n E))).run step st sl).delivered =
          (List.range n).map (fun i : Nat => ((i : Int), strconv.Itoa i)) ∧
      ((Seq2.Unwrap (Of2 (countingGenerator2 n E))).run step st sl).slot = some E ∧
      ((Seq2.Unwrap (Of2 (countingGenerator2 n E))).run step st sl).result = some ()) := by
  constructor
  · intro s es step st sl hs hstep
    constructor
    · intro pre e post hes hpre he
      exact Unwrap2_until_first step hstep s st sl pre e post (hs.trans hes) hpre he
    · intro hall
      rw [← hs] at hall ⊢
      exact Unwrap2_all_success step hstep s st sl hall
  · intro n E step st sl hE hstep
    have hIs : errors.Is E ErrStop = false := by
      rw [Bool.eq_false_iff, Ne, errors_Is_iff_mem_chain]
      exact hE
    have hgen : countingGenerator2 n E = countFrom2 E n 0 := by
      simp [countingGenerator2]
    obtain ⟨h1, h2, h3⟩ := Unwrap2_Of2_countFrom2_run E hIs step hstep n 0 st sl
    simp only [Nat.cast_zero] at h1 h2 h3
    rw [hgen]
    refine ⟨?_, h2, h3⟩
    rw [h1, List.range_eq_range']

theorem Unwrap2_yields_until_first_error_witness :
    ((Seq2.Unwrap (Counter2 3)).run alwaysContinue () none).delivered =
        (List.range 3).map (fun i : Nat => ((i : Int), strconv.Itoa i)) ∧
    ((Seq2.Unwrap (Counter2 3)).run alwaysContinue () none).slot =
        some (Error.new "Error World!") ∧
    ((Seq2.Unwrap (Counter2 3)).run alwaysContinue () none).result = some () :=
  (@Unwrap2_yields_until_first_error Int String Unit).2 3 (Error.new "Error World!")
    alwaysContinue () none (by simp [Error.chain, ErrStop]) (fun _ _ => rfl)

/-- C16: for a pair sequence whose pairs are `kvs` and a consumer that always
continues, `Just2` delivers one entry per pair, in order, the entry of `(k, v)`
having `Err()` absent, `Key() = k` and `Value() = v`; and whatever the sequence
and the consumer, `Just2` delivers no error entry. -/
theorem Just2_delivers_each_pair :
    (∀ (it : IterSeq2 K V) (kvs : List (K × V)) (step : Entry2 K V → σ → Bool × σ) (st : σ),
      (it.run alwaysContinue () none).delivered = kvs →
      (∀ e s, (step e s).1 = true) →
      ((Just2 it).run step st none).delivered = kvs.map success2 ∧
      (∀ kv : K × V, (success2 kv).Err = none ∧ (success2 kv).Key = kv.1 ∧
        (success2 kv).Value = kv.2) ∧
      ((Just2 it).run step st none).result = (it.run alwaysContinue () none).result) ∧
    (∀ (it : IterSeq2 K V) (step : Entry2 K V → σ → Bool × σ) (st : σ) (e : Entry2 K V),
      e ∈ ((Just2 it).run step st none).delivered → e.Err = none) := by
  constructor
  · intro it kvs step st hkvs hstep
    obtain ⟨h1, h2⟩ := Just2_run_of_continue step hstep it st none
    rw [hkvs] at h1
    exact ⟨h1, fun kv => ⟨rfl, rfl, rfl⟩, h2⟩
  · intro it step st e he
    obtain ⟨kv, -, rfl⟩ := Just2_delivered_success step it st none e he
    rfl

theorem Just2_delivers_each_pair_witness :
    ((Just2 (slicesAll [(1 : Int), 2, 3])).run alwaysContinue () none).delivered =
        [((0 : Int), (1 : Int)), (1, 2), (2, 3)].map success2 ∧
    (∀ kv : Int × Int, (success2 kv).Err = none ∧ (success2 kv).Key = kv.1 ∧
      (success2 kv).Value = kv.2) ∧
    ((Just2 (slicesAll [(1 : Int), 2, 3])).run alwaysContinue () none).result =
        ((slicesAll [(1 : Int), 2, 3]).run alwaysContinue () none).result :=
  (@Just2_delivers_each_pair Int Int Unit).1 (slicesAll [1, 2, 3]) [(0, 1), (1, 2), (2, 3)]
    alwaysContinue () rfl (fun _ _ => rfl)

end Claims2

/-! ## Passes for the comparisons -/

section ComparePass

variable {T σ : Type}

theorem neverFailing_ret (u : Unit) : neverFailing (Prog.ret u : IterSeq T) = Prog.ret none := rfl

theorem neverFailing_yield (t : T) (k : Bool → IterSeq T) :
    neverFailing (Prog.yield t k) = Prog.yield t (fun b => neverFailing (k b)) := by
  simp [neverFailing, call, Prog.bind, emit]

theorem neverFailing_panic : neverFailing (Prog.panic : IterSeq T) = Prog.panic := rfl

/-- A pass over `Of` of the generator that runs `it` and returns nil is the
pass of `it` against the callback that hands each element to the consumer as a
success entry and returns the consumer's answer. -/
theorem Of_neverFailing_run [Inhabited T] (step : Entry T → σ → Bool × σ) (it : IterSeq T)
    (st : σ) (sl : Option Empty) :
    ((Of (neverFailing it)).run step st sl).log =
        (it.run (fun t => step (success t)) st sl).log.map (fun a => (success a.1, a.2)) ∧
    ((Of (neverFailing it)).run step st sl).state =
        (it.run (fun t => step (success t)) st sl).state ∧
    ((Of (neverFailing it)).run step st sl).result =
        (it.run (fun t => step (success t)) st sl).result := by
  induction it generalizing st with
  | ret r => simp [neverFailing_ret, Of_ret_none, Prog.run]
  | yield t k ih =>
      rw [neverFailing_yield, Of_yield]
      obtain ⟨h1, h2, h3⟩ := ih (step (success t) st).1 (step (success t) st).2
      simp [Prog.run, h1, h2, h3]
  | store w _ _ => exact w.elim
  | panic => simp [neverFailing_panic, Of_panic, Prog.run]

/-- For a sequence that makes no call after a stop, a pass over
`Just(it).Unwrap(&slot)` is the pass of `it` against the same consumer, and the
slot is left alone. -/
theorem Unwrap_Just_run_obeys (step : T → σ → Bool × σ) (it : IterSeq T)
    (hit : it.obeysStop = true) (st : σ) (sl : Option Error) :
    ((Seq.Unwrap (Just it)).run step st sl).log = (it.run step st none).log ∧
    ((Seq.Unwrap (Just it)).run step st sl).state = (it.run step st none).state ∧
    ((Seq.Unwrap (Just it)).run step st sl).slot = sl ∧
    ((Seq.Unwrap (Just it)).run step st sl).result = (it.run step st none).result := by
  induction it generalizing st with
  | ret r => simp [Just_ret, Unwrap_ret, Prog.run]
  | yield t k ih =>
      simp only [Prog.obeysStop, Bool.and_eq_true] at hit
      rw [Just_yield, Unwrap_yield_success (success t) _ rfl]
      simp only [Prog.run, success, Entry.Value, if_true, Bool.false_eq_true, if_false]
      cases ha : (step t st).1 with
      | true =>
          obtain ⟨h1, h2, h3, h4⟩ := ih true hit.1 (step t st).2
          simp [h1, h2, h3, h4]
      | false =>
          obtain ⟨h1, h2, h3⟩ := afterExit_run (W := Error) step
            (afterExit (k false) : Seq T) (step t st).2 sl
          have h4 : ((afterExit (afterExit (k false) : Seq T) : Prog Error T Unit).run step
              (step t st).2 sl).result = ((k false).run step (step t st).2 none).result := by
            cases hk : k false with
            | ret r => simp [afterExit, Prog.run]
            | yield x k' =>
                rw [hk] at hit
                simp [Prog.silent] at hit
            | store w _ => exact w.elim
            | panic => simp [afterExit, Prog.run]
          have h5 := silent_log step (k false) hit.2 (step t st).2 none
          obtain ⟨-, -, h6⟩ := afterExit_run_silent (W := Error) (Y := T) step step (k false)
            hit.2 (step t st).2 sl none
          simp [h1, h2, h3, h4, h5, h6]
  | store w _ _ => exact w.elim
  | panic => simp [Just_panic, Unwrap_panic, Prog.run]

end ComparePass

/-! ## The claims about the shape of entries and about the wrapper callback -/

section ShapeClaims

variable {T K V σ : Type}

/-- C13: every entry delivered by `Of` or `Of2` is a success entry, with
`Err()` absent and the value or pair that the generator passed to its step
callback, or an error entry, with `Err()` present and `Value()`, and `Key()` for
`Of2`, at the zero value; every entry delivered by `Just` or `Just2` is the
success entry of an element or pair of the sequence. -/
theorem delivered_entry_shape [Inhabited T] [Inhabited K] [Inhabited V] :
    (∀ (g : Generator T) (step : Entry T → σ → Bool × σ) (st : σ) (e : Entry T),
      e ∈ ((Of g).run step st none).delivered →
      (e.Err = none ∧ e.Value ∈ (g.run (fun t => step (success t)) st none).delivered) ∨
      (e.Err ≠ none ∧ e.Value = default)) ∧
    (∀ (g : Generator2 K V) (step : Entry2 K V → σ → Bool × σ) (st : σ) (e : Entry2 K V),
      e ∈ ((Of2 g).run step st none).delivered →
      (e.Err = none ∧
        (e.Key, e.Value) ∈ (g.run (fun kv => step (success2 kv)) st none).delivered) ∨
      (e.Err ≠ none ∧ e.Key = default ∧ e.Value = default)) ∧
    (∀ (it : IterSeq T) (step : Entry T → σ → Bool × σ) (st : σ) (e : Entry T),
      e ∈ ((Just it).run step st none).delivered →
      e.Err = none ∧ e.Value ∈ (it.run (fun t => step (success t)) st none).delivered) ∧
    (∀ (it : IterSeq2 K V) (step : Entry2 K V → σ → Bool × σ) (st : σ) (e : Entry2 K V),
      e ∈ ((Just2 it).run step st none).delivered →
      e.Err = none ∧
        (e.Key, e.Value) ∈ (it.run (fun kv => step (success2 kv)) st none).delivered) := by
  refine ⟨?_, ?_, ?_, ?_⟩
  · intro g step st e he
    simp only [Pass.delivered, List.mem_map] at he
    obtain ⟨a, ha, rfl⟩ := he
    have hsucc : ∀ c ∈ (g.run (fun t => step (success t)) st none).log,
        (success c.1).Err = none ∧
          (success c.1).Value ∈ (g.run (fun t => step (success t)) st none).delivered :=
      fun c hc => ⟨rfl, List.mem_map.2 ⟨c, hc, rfl⟩⟩
    rcases Of_log step g st none with hlog | ⟨e', b, -, -, hlog⟩
    · rw [hlog] at ha
      obtain ⟨c, hc, rfl⟩ := List.mem_map.1 ha
      exact Or.inl (hsucc c hc)
    · rw [hlog, List.mem_append] at ha
      rcases ha with ha | ha
      · obtain ⟨c, hc, rfl⟩ := List.mem_map.1 ha
        exact Or.inl (hsucc c hc)
      · simp only [List.mem_singleton] at ha
        subst ha
        exact Or.inr ⟨by simp [failure, Entry.Err], rfl⟩
  · intro g step st e he
    simp only [Pass.delivered, List.mem_map] at he
    obtain ⟨a, ha, rfl⟩ := he
    have hsucc : ∀ c ∈ (g.run (fun kv => step (success2 kv)) st none).log,
        (success2 c.1).Err = none ∧
          ((success2 c.1).Key, (success2 c.1).Value) ∈
            (g.run (fun kv => step (success2 kv)) st none).delivered :=
      fun c hc => ⟨rfl, List.mem_map.2 ⟨c, hc, rfl⟩⟩
    rcases Of2_log step g st none with ⟨hlog, -, -⟩ | ⟨e', b, -, -, -, hlog⟩
    · rw [hlog] at ha
      obtain ⟨c, hc, rfl⟩ := List.mem_map.1 ha
      exact Or.inl (hsucc c hc)
    · rw [hlog, List.mem_append] at ha
      rcases ha with ha | ha
      · obtain ⟨c, hc, rfl⟩ := List.mem_map.1 ha
        exact Or.inl (hsucc c hc)
      · simp only [List.mem_singleton] at ha
        subst ha
        exact Or.inr ⟨by simp [failure2, Entry2.Err], rfl, rfl⟩
  · intro it step st e he
    obtain ⟨t, ht, rfl⟩ := Just_delivered_success step it st none e he
    exact ⟨rfl, ht⟩
  · intro it step st e he
    obtain ⟨kv, hkv, rfl⟩ := Just2_delivered_success step it st none e he
    exact ⟨rfl, hkv⟩

theorem delivered_entry_shape_witness :
    failure (Error.new "Error World!") ∈ ((Counter 3).run alwaysContinue () none).delivered ∧
    (((failure (Error.new "Error World!") : Entry Int).Err = none ∧
        (failure (Error.new "Error World!") : Entry Int).Value ∈
          ((countingGenerator 3 (Error.new "Error World!")).run
            (fun t => alwaysContinue (success t)) () none).delivered) ∨
      ((failure (Error.new "Error World!") : Entry Int).Err ≠ none ∧
        (failure (Error.new "Error World!") : Entry Int).Value = default)) :=
  ⟨by decide,
    (@delivered_entry_shape Int Int String Unit _ _ _).1
      (countingGenerator 3 (Error.new "Error World!")) alwaysContinue ()
      (failure (Error.new "Error World!")) (by decide)⟩

/-- C17: stop propagation in `Of`.  The wrapper step callback delivers the
value it is given as one success entry and returns the consumer's answer to the
generator, which goes on from that answer; so in every pass the success entries
delivered, with the consumer's answers, are the generator's calls with the
answers it got, one for one and in order, a stop included. -/
theorem Of_wrapper_forwards [Inhabited T] (g : Generator T) (step : Entry T → σ → Bool × σ)
    (st : σ) :
    (∀ (t : T) (k : Bool → Generator T),
      Of (Prog.yield t k) = Prog.yield (success t) (fun b => Of (k b))) ∧
    ((Of g).run step st none).log.filter (fun a => a.1.Err.isNone) =
      (g.run (fun t => step (success t)) st none).log.map (fun a => (success a.1, a.2)) := by
  refine ⟨fun t k => Of_yield t k, ?_⟩
  have hkeep : ∀ l : List (T × Bool),
      (l.map (fun a => (success a.1, a.2))).filter (fun a => a.1.Err.isNone) =
        l.map (fun a => (success a.1, a.2)) := by
    intro l
    rw [List.filter_eq_self]
    intro a ha
    obtain ⟨c, -, rfl⟩ := List.mem_map.1 ha
    rfl
  rcases Of_log step g st none with hlog | ⟨e, b, -, -, hlog⟩
  · rw [hlog, hkeep]
  · rw [hlog, List.filter_append, hkeep]
    simp [failure, Entry.Err]

end ShapeClaims

/-! ## The claims that compare the adapters -/

section CompareClaims

variable {T σ : Type}

/-- C18, as the claim states it, fails: the sequence that calls its step
callback on `1` and on `2` whatever the answer, with a consumer that stops at
once.  Called directly it reaches the consumer twice; under
`Just(it).Unwrap(&slot)` the consumer is called on `1` only, and the second call
of the sequence ends the pass in the panic of the range statement. -/
theorem Unwrap_Just_differs_on_deaf_sequence :
    (deafSeq.run stopNow () none).log = [(1, false), (2, false)] ∧
    (deafSeq.run stopNow () none).result = some () ∧
    ((Seq.Unwrap (Just deafSeq)).run stopNow () none).log = [(1, false)] ∧
    ((Seq.Unwrap (Just deafSeq)).run stopNow () none).result = none ∧
    ¬ ∀ (it : IterSeq Int) (step : Int → Unit → Bool × Unit) (st : Unit) (sl : Option Error),
        ((Seq.Unwrap (Just it)).run step st sl).log = (it.run step st none).log ∧
        ((Seq.Unwrap (Just it)).run step st sl).slot = sl := by
  refine ⟨rfl, rfl, rfl, rfl, ?_⟩
  intro h
  have h1 := (h deafSeq stopNow () none).1
  revert h1
  decide

/-- C18, amended: for a sequence that makes no call once its step callback has
returned stop, every step callback and every content of the slot, running
`Just(it).Unwrap(&slot)` calls the step callback on the same values in the same
order as running `it` with it, with the same answers, ends as `it` does, and
leaves the slot as it was; the answer to a value goes back to `it`. -/
theorem Unwrap_Just_is_identity (it : IterSeq T) (step : T → σ → Bool × σ) (st : σ)
    (sl : Option Error) (hit : it.obeysStop = true) :
    ((Seq.Unwrap (Just it)).run step st sl).log = (it.run step st none).log ∧
    ((Seq.Unwrap (Just it)).run step st sl).state = (it.run step st none).state ∧
    ((Seq.Unwrap (Just it)).run step st sl).slot = sl ∧
    ((Seq.Unwrap (Just it)).run step st sl).result = (it.run step st none).result ∧
    (∀ (t : T) (k : Bool → IterSeq T),
      Seq.Unwrap (Just (Prog.yield t k)) =
        Prog.yield t (fun ok =>
          if ok then Seq.Unwrap (Just (k true)) else afterExit (afterExit (k false) : Seq T))) := by
  obtain ⟨h1, h2, h3, h4⟩ := Unwrap_Just_run_obeys step it hit st sl
  refine ⟨h1, h2, h3, h4, ?_⟩
  intro t k
  rw [Just_yield, Unwrap_yield_success (success t) _ rfl]
  simp [success, Entry.Value]

theorem Unwrap_Just_is_identity_witness :
    (slicesValues [(1 : Int), 2, 3]).obeysStop = true ∧
    ((Seq.Unwrap (Just (slicesValues [(1 : Int), 2, 3]))).run (stopAt 2) 0
        (some (Error.new "earlier"))).log =
      ((slicesValues [(1 : Int), 2, 3]).run (stopAt 2) 0 none).log ∧
    ((Seq.Unwrap (Just (slicesValues [(1 : Int), 2, 3]))).run (stopAt 2) 0
        (some (Error.new "earlier"))).state =
      ((slicesValues [(1 : Int), 2, 3]).run (stopAt 2) 0 none).state ∧
    ((Seq.Unwrap (Just (slicesValues [(1 : Int), 2, 3]))).run (stopAt 2) 0
        (some (Error.new "earlier"))).slot = some (Error.new "earlier") ∧
    ((Seq.Unwrap (Just (slicesValues [(1 : Int), 2, 3]))).run (stopAt 2) 0
        (some (Error.new "earlier"))).result =
      ((slicesValues [(1 : Int), 2, 3]).run (stopAt 2) 0 none).result ∧
    (∀ (t : Int) (k : Bool → IterSeq Int),
      Seq.Unwrap (Just (Prog.yield t k)) =
        Prog.yield t (fun ok =>
          if ok then Seq.Unwrap (Just (k true))
          else afterExit (afterExit (k false) : Seq Int))) :=
  ⟨rfl, Unwrap_Just_is_identity (slicesValues [1, 2, 3]) (stopAt 2) 0
    (some (Error.new "earlier")) rfl⟩

/-- C19, as the claim states it, fails: for the sequence that calls its step
callback on `1` and on `2` whatever the answer, and a consumer that stops at
once, `Of` of the generator that runs the sequence and returns nil delivers
both entries, while `Just` delivers the first and ends in the panic of the
range statement. -/
theorem Of_neverFailing_differs_from_Just :
    ((Of (neverFailing deafSeq)).run stopNow () none).log =
        [(success 1, false), (success 2, false)] ∧
    ((Of (neverFailing deafSeq)).run stopNow () none).result = some () ∧
    ((Just deafSeq).run stopNow () none).log = [(success 1, false)] ∧
    ((Just deafSeq).run stopNow () none).result = none ∧
    ¬ ∀ (it : IterSeq Int) (step : Entry Int → Unit → Bool × Unit) (st : Unit),
        ((Of (neverFailing it)).run step st none).log = ((Just it).run step st none).log := by
  refine ⟨rfl, rfl, rfl, rfl, ?_⟩
  intro h
  have h1 := h deafSeq stopNow ()
  revert h1
  decide

/-- C19, amended: for a sequence that makes no call once its step callback has
returned stop, and any consumer, `Of` of the generator that runs the sequence
with the step callback it is given and returns nil delivers the same entries as
`Just`, in the same order and with the same answers, leaves the consumer in
the same state and ends the same way. -/
theorem Of_neverFailing_is_Just [Inhabited T] (it : IterSeq T) (step : Entry T → σ → Bool × σ)
    (st : σ) (hit : it.obeysStop = true) :
    ((Of (neverFailing it)).run step st none).log = ((Just it).run step st none).log ∧
    ((Of (neverFailing it)).run step st none).state = ((Just it).run step st none).state ∧
    ((Of (neverFailing it)).run step st none).result = ((Just it).run step st none).result := by
  obtain ⟨h1, h2, h3⟩ := Of_neverFailing_run step it st none
  obtain ⟨h4, h5, h6⟩ := Just_run_obeys step it hit st none
  exact ⟨h1.trans h4.symm, h2.trans h5.symm, h3.trans h6.symm⟩

theorem Of_neverFailing_is_Just_witness :
    (slicesValues [(1 : Int), 2, 3]).obeysStop = true ∧
    ((Of (neverFailing (slicesValues [(1 : Int), 2, 3]))).run (stopAt 2) 0 none).log =
      ((Just (slicesValues [(1 : Int), 2, 3])).run (stopAt 2) 0 none).log ∧
    ((Of (neverFailing (slicesValues [(1 : Int), 2, 3]))).run (stopAt 2) 0 none).state =
      ((Just (slicesValues [(1 : Int), 2, 3])).run (stopAt 2) 0 none).state ∧
    ((Of (neverFailing (slicesValues [(1 : Int), 2, 3]))).run (stopAt 2) 0 none).result =
      ((Just (slicesValues [(1 : Int), 2, 3])).run (stopAt 2) 0 none).result :=
  ⟨rfl, Of_neverFailing_is_Just (slicesValues [1, 2, 3]) (stopAt 2) 0 rfl⟩

end CompareClaims

end Eiter
